import Mathlib

/-!
Shallow embedding of the reflexion-core graph model: the shared primitive
types (src/core/types.rs), the classification taxonomies (src/core/state.rs)
and the graph store (src/core/graph.rs). Rust's HashMap is modelled as an
association list with key-unique insertion; u32 identifiers are modelled as
Nat and the i32 counter as Int.
-/

namespace Reflexion

/-- Node identifier, from pub type NodeId = u32 in types.rs. -/
abbrev NodeId := Nat

/-- Edge identifier, from pub type EdgeId = u32 in types.rs. -/
abbrev EdgeId := Nat

/-- Per-edge counter, from pub type Counter = i32 in types.rs. -/
abbrev Counter := Int

/-- Subgraph membership tag, from enum SubgraphKind in types.rs. -/
inductive SubgraphKind
  | Architecture
  | Implementation
  | Propagated
deriving DecidableEq

/-- Relationship kind, from struct EdgeKind(String) in types.rs. -/
structure EdgeKind where
  val : String
deriving DecidableEq

/-- Node kind vocabulary, from enum NodeKind in types.rs. -/
inductive NodeKind
  | ArchitectureNode
  | ImplementationNode
  | DatastoreNode
  | ServiceNode
  | UINode
  | ModuleNode
  | ClassNode
  | PackageNode
  | FunctionNode
  | Custom (s : String)
deriving DecidableEq

/-- Edge classification, from enum EdgeState in state.rs. -/
inductive EdgeState
  | Undefined
  | Specified
  | Convergent
  | Absent
  | AllowedAbsent
  | Allowed
  | Divergent
  | Unmapped
deriving DecidableEq

/-- From EdgeState::is_violation: matches Absent or Divergent. -/
def EdgeState.is_violation : EdgeState → Bool
  | EdgeState.Absent => true
  | EdgeState.Divergent => true
  | _ => false

/-- From EdgeState::is_unknown: matches Undefined, Unmapped or Specified. -/
def EdgeState.is_unknown : EdgeState → Bool
  | EdgeState.Undefined => true
  | EdgeState.Unmapped => true
  | EdgeState.Specified => true
  | _ => false

/-- From EdgeState::is_ok: matches Allowed, AllowedAbsent or Convergent. -/
def EdgeState.is_ok : EdgeState → Bool
  | EdgeState.Allowed => true
  | EdgeState.AllowedAbsent => true
  | EdgeState.Convergent => true
  | _ => false

/-- Node classification, from enum NodeState in state.rs. -/
inductive NodeState
  | Mapped
  | Unmapped
  | SpecifiedOnly
  | Undefined
deriving DecidableEq

/-- From NodeState::is_problem: matches Unmapped or SpecifiedOnly. -/
def NodeState.is_problem : NodeState → Bool
  | NodeState.Unmapped => true
  | NodeState.SpecifiedOnly => true
  | _ => false

/-- From NodeState::is_unknown: matches Undefined. -/
def NodeState.is_unknown : NodeState → Bool
  | NodeState.Undefined => true
  | _ => false

/-- From NodeState::is_ok: matches Mapped. -/
def NodeState.is_ok : NodeState → Bool
  | NodeState.Mapped => true
  | _ => false

/-- Error taxonomy, from enum GraphError in graph.rs. -/
inductive GraphError
  | ParentNotFound (id : NodeId)
  | NodeNotFound (id : NodeId)
deriving DecidableEq

/-- Vertex record, from struct Node in graph.rs. -/
structure Node where
  id : NodeId
  name : String
  subgraph : SubgraphKind
  parent : Option NodeId
  children : List NodeId
deriving DecidableEq

/-- Directed edge record, from struct Edge in graph.rs. The Rust field
named from is spelled from_ here because from is a Lean keyword. -/
structure Edge where
  id : EdgeId
  from_ : NodeId
  to_ : NodeId
  kind : EdgeKind
  subgraph : SubgraphKind
  state : EdgeState
  counter : Counter
deriving DecidableEq

/-- Association-list model of std HashMap: later insertions keep keys
unique, lookups take the first matching entry. -/
abbrev Map (α β : Type) : Type := List (α × β)

/-- HashMap::get - the first entry carrying the key, if any. -/
def hmGet [DecidableEq α] {β : Type} : Map α β → α → Option β
  | [], _ => none
  | (k, v) :: m, a => if a = k then some v else hmGet m a

/-- HashMap::contains_key. -/
def hmContains [DecidableEq α] {β : Type} (m : Map α β) (a : α) : Bool :=
  (hmGet m a).isSome

/-- HashMap::remove - drops the entry carrying the key. -/
def hmErase [DecidableEq α] {β : Type} : Map α β → α → Map α β
  | [], _ => []
  | (k, v) :: m, a => if k = a then hmErase m a else (k, v) :: hmErase m a

/-- HashMap::insert - the key's previous entry is replaced. -/
def hmInsert [DecidableEq α] {β : Type} (m : Map α β) (a : α) (v : β) : Map α β :=
  hmErase m a ++ [(a, v)]

/-- HashMap::get_mut followed by an in-place update of the value; a missing
key leaves the map unchanged (the get_mut arm is not taken). -/
def hmUpdate [DecidableEq α] {β : Type} : Map α β → α → (β → β) → Map α β
  | [], _, _ => []
  | (k, v) :: m, a, f =>
    if k = a then (k, f v) :: hmUpdate m a f else (k, v) :: hmUpdate m a f

/-- Iteration with values_mut over the whole map. -/
def hmMapVals {α β : Type} (f : β → β) (m : Map α β) : Map α β :=
  m.map (fun p => (p.1, f p.2))

/-- HashMap::entry(k).or_default().push(v) on a map of vectors. -/
def hmPushEntry [DecidableEq α] {β : Type} (m : Map α (List β)) (a : α) (v : β) :
    Map α (List β) :=
  match hmGet m a with
  | some _ => hmUpdate m a (fun l => l ++ [v])
  | none => hmInsert m a [v]

/-- The pattern if let Some(v) = map.get_mut(&k), then v.retain(|y| y != x). -/
def hmRetainAt [DecidableEq α] [DecidableEq β] (m : Map α (List β)) (a : α) (x : β) :
    Map α (List β) :=
  hmUpdate m a (fun l => l.filter (fun y => decide (¬ y = x)))

/-- The whole store, from struct ReflexionGraph in graph.rs. The HashSet of
implementation edge ids in the propagation table is modelled as a list. -/
structure ReflexionGraph where
  nodes : Map NodeId Node
  edges : Map EdgeId Edge
  impl_out : Map NodeId (List EdgeId)
  arch_out : Map NodeId (List EdgeId)
  maps_to : Map NodeId NodeId
  propagation_table : Map EdgeId (List EdgeId)
  next_node_id : NodeId
  next_edge_id : EdgeId
deriving DecidableEq

/-- ReflexionGraph::new. -/
def ReflexionGraph.new : ReflexionGraph :=
  { nodes := [], edges := [], impl_out := [], arch_out := [], maps_to := [],
    propagation_table := [], next_node_id := 1, next_edge_id := 1 }

/-- Straight-line tail of ReflexionGraph::add_node once the parent check has
passed: fresh_node_id (read the counter, then bump it), overwrite the record
id, insert, and push the fresh id onto the parent's children when the stored
record declares one (the Rust code re-reads the inserted record and its
get_mut(&parent_id) cannot fail there, having been checked above; the
missing-key branch of hmUpdate is therefore unreachable on that path). -/
def add_node_go (g : ReflexionGraph) (node : Node) :
    Except GraphError NodeId × ReflexionGraph :=
  let id := g.next_node_id
  let g1 := { g with next_node_id := g.next_node_id + 1 }
  let stored := { node with id := id }
  let nodes1 := hmInsert g1.nodes id stored
  let nodes2 :=
    match (hmGet nodes1 id).bind Node.parent with
    | some parent_id =>
      hmUpdate nodes1 parent_id (fun p => { p with children := p.children ++ [id] })
    | none => nodes1
  (Except.ok id, { g1 with nodes := nodes2 })

/-- ReflexionGraph::add_node. The mutable receiver is modelled by returning
the post-call store next to the Result. -/
def ReflexionGraph.add_node (g : ReflexionGraph) (node : Node) :
    Except GraphError NodeId × ReflexionGraph :=
  match node.parent with
  | some parent_id =>
    if hmContains g.nodes parent_id then add_node_go g node
    else (Except.error (GraphError.ParentNotFound parent_id), g)
  | none => add_node_go g node

/-- Straight-line tail of ReflexionGraph::add_edge once both endpoint checks
have passed: fresh_edge_id, overwrite the record id, insert, then route the
fresh id into the adjacency index selected by the stored record's subgraph
(the Rust code re-reads the just-inserted record; stored is that value). -/
def add_edge_go (g : ReflexionGraph) (edge : Edge) :
    Except GraphError EdgeId × ReflexionGraph :=
  let id := g.next_edge_id
  let g1 := { g with next_edge_id := g.next_edge_id + 1 }
  let stored := { edge with id := id }
  let edges1 := hmInsert g1.edges id stored
  match stored.subgraph with
  | SubgraphKind.Implementation =>
    (Except.ok id,
      { g1 with edges := edges1, impl_out := hmPushEntry g1.impl_out stored.from_ id })
  | SubgraphKind.Architecture =>
    (Except.ok id,
      { g1 with edges := edges1, arch_out := hmPushEntry g1.arch_out stored.from_ id })
  | SubgraphKind.Propagated =>
    (Except.ok id,
      { g1 with edges := edges1, arch_out := hmPushEntry g1.arch_out stored.from_ id })

/-- ReflexionGraph::add_edge: source endpoint checked first, then target,
before any mutation. -/
def ReflexionGraph.add_edge (g : ReflexionGraph) (edge : Edge) :
    Except GraphError EdgeId × ReflexionGraph :=
  if hmContains g.nodes edge.from_ then
    if hmContains g.nodes edge.to_ then add_edge_go g edge
    else (Except.error (GraphError.NodeNotFound edge.to_), g)
  else (Except.error (GraphError.NodeNotFound edge.from_), g)

/-- Per-edge body of the values_mut loop in ReflexionGraph::init_states:
counter zeroed, state set from the subgraph. -/
def resetEdge (e : Edge) : Edge :=
  { e with
    counter := 0,
    state :=
      match e.subgraph with
      | SubgraphKind.Architecture => EdgeState.Specified
      | SubgraphKind.Implementation => EdgeState.Undefined
      | SubgraphKind.Propagated => EdgeState.Undefined }

/-- ReflexionGraph::init_states. -/
def ReflexionGraph.init_states (g : ReflexionGraph) : ReflexionGraph :=
  { g with edges := hmMapVals resetEdge g.edges, propagation_table := [] }

/-- Body of the removal loop in ReflexionGraph::clear_propagated_edges for
one collected id: if the id is still present, remove its edge record, retain
away the id in both adjacency vectors at the removed edge's source, and drop
the propagation-table entry keyed by it. -/
def removeEdgeStep (g : ReflexionGraph) (eid : EdgeId) : ReflexionGraph :=
  match hmGet g.edges eid with
  | none => g
  | some e =>
    { g with
      edges := hmErase g.edges eid,
      impl_out := hmRetainAt g.impl_out e.from_ eid,
      arch_out := hmRetainAt g.arch_out e.from_ eid,
      propagation_table := hmErase g.propagation_table eid }

/-- The ids ReflexionGraph::clear_propagated_edges collects first: every
stored edge id whose subgraph is Propagated. -/
def propagatedIds (g : ReflexionGraph) : List EdgeId :=
  (g.edges.filter (fun p => decide (p.2.subgraph = SubgraphKind.Propagated))).map
    Prod.fst

/-- ReflexionGraph::clear_propagated_edges: collect, then remove one by one. -/
def ReflexionGraph.clear_propagated_edges (g : ReflexionGraph) : ReflexionGraph :=
  (propagatedIds g).foldl removeEdgeStep g

/-- One public call on the store. -/
inductive Op
  | addNode (n : Node)
  | addEdge (e : Edge)
  | initStates
  | clearPropagated

/-- Apply one public call; a failed insertion leaves the store as the
returned state (which add_node/add_edge keep unchanged on failure). -/
def applyOp (g : ReflexionGraph) : Op → ReflexionGraph
  | Op.addNode n => (g.add_node n).2
  | Op.addEdge e => (g.add_edge e).2
  | Op.initStates => g.init_states
  | Op.clearPropagated => g.clear_propagated_edges

/-- Run a sequence of public calls. -/
def run (g : ReflexionGraph) (ops : List Op) : ReflexionGraph :=
  ops.foldl applyOp g

/-- States reachable from ReflexionGraph::new via the public operations. -/
def Reachable (g : ReflexionGraph) : Prop :=
  ∃ ops : List Op, run ReflexionGraph.new ops = g

/-- An input record as the store's intended discipline (and its own test
constructor mk_node) supplies it: the children list starts empty, being
maintained exclusively by the store. -/
def wfOp : Op → Prop
  | Op.addNode n => n.children = []
  | _ => True

/-- States reachable via public operations whose add_node inputs carry an
empty children list. -/
def ReachableWF (g : ReflexionGraph) : Prop :=
  ∃ ops : List Op, (∀ op ∈ ops, wfOp op) ∧ run ReflexionGraph.new ops = g

/-- Keys of the association list are pairwise distinct. -/
def hmKeysNodup {α β : Type} (m : Map α β) : Prop :=
  (m.map Prod.fst).Nodup

/-- Structural well-formedness the store maintains across every public
operation: keys are below the id counters, stored records carry their key as
id, adjacency entries point at stored edges of the matching subgraph keyed
by their source, and the counters start no lower than 1. -/
structure Inv0 (g : ReflexionGraph) : Prop where
  nodes_nodup : hmKeysNodup g.nodes
  edges_nodup : hmKeysNodup g.edges
  node_key_lt : ∀ i n, hmGet g.nodes i = some n → i < g.next_node_id
  node_id_eq : ∀ i n, hmGet g.nodes i = some n → n.id = i
  edge_key_lt : ∀ i e, hmGet g.edges i = some e → i < g.next_edge_id
  edge_id_eq : ∀ i e, hmGet g.edges i = some e → e.id = i
  impl_adj : ∀ v l, hmGet g.impl_out v = some l → ∀ x ∈ l,
    ∃ e, hmGet g.edges x = some e ∧ e.from_ = v ∧
      e.subgraph = SubgraphKind.Implementation
  arch_adj : ∀ v l, hmGet g.arch_out v = some l → ∀ x ∈ l,
    ∃ e, hmGet g.edges x = some e ∧ e.from_ = v ∧
      (e.subgraph = SubgraphKind.Architecture ∨ e.subgraph = SubgraphKind.Propagated)
  node_pos : 1 ≤ g.next_node_id
  edge_pos : 1 ≤ g.next_edge_id

/-- Parent/child bookkeeping the store maintains when records enter with an
empty children list. -/
structure ChildInv (g : ReflexionGraph) : Prop where
  parent_present : ∀ i n p, hmGet g.nodes i = some n → n.parent = some p →
    hmContains g.nodes p = true
  children_lt : ∀ i n, hmGet g.nodes i = some n → ∀ c ∈ n.children,
    c < g.next_node_id
  child_parent : ∀ i n, hmGet g.nodes i = some n → ∀ c ∈ n.children,
    ∃ m, hmGet g.nodes c = some m ∧ m.parent = some i
  parent_child_count : ∀ i n c m, hmGet g.nodes i = some n →
    hmGet g.nodes c = some m → m.parent = some i → n.children.count c = 1

/-- The parent/child symmetry the spec claims of every node pair: a stored
child's parent owns it exactly once, and every listed child is a stored node
pointing back at its owner. -/
def ChildrenSym (g : ReflexionGraph) : Prop :=
  (∀ pid p cid c, hmGet g.nodes pid = some p → hmGet g.nodes cid = some c →
    c.parent = some p.id → p.children.count cid = 1) ∧
  (∀ i n, hmGet g.nodes i = some n → ∀ c ∈ n.children,
    ∃ m, hmGet g.nodes c = some m ∧ m.parent = some n.id)

/-- Test helper mk_node from the graph.rs test module: id 0 placeholder,
empty children. -/
def mk_node (nm : String) (sg : SubgraphKind) (pa : Option NodeId) : Node :=
  { id := 0, name := nm, subgraph := sg, parent := pa, children := [] }

/-- Test helper mk_edge from the graph.rs test module: id 0 placeholder,
state Undefined, counter 0. -/
def mk_edge (f t : NodeId) (sg : SubgraphKind) (k : EdgeKind) : Edge :=
  { id := 0, from_ := f, to_ := t, kind := k, subgraph := sg,
    state := EdgeState.Undefined, counter := 0 }

/-! ## Concrete scenarios, mirroring the graph.rs test module -/

/-- Architecture node record A (test add_edge_updates_correct_adjacency_map). -/
def nA : Node := mk_node "Arch1" SubgraphKind.Architecture none

/-- Architecture node record B, child of node 1. -/
def nB : Node := mk_node "Arch2" SubgraphKind.Architecture (some 1)

/-- Implementation node record I1. -/
def nI1 : Node := mk_node "Impl1" SubgraphKind.Implementation none

/-- Implementation node record I2. -/
def nI2 : Node := mk_node "Impl2" SubgraphKind.Implementation none

/-- Architecture edge record 1 → 2. -/
def eArch : Edge := mk_edge 1 2 SubgraphKind.Architecture { val := "contains" }

/-- Implementation edge record 3 → 4. -/
def eImpl : Edge := mk_edge 3 4 SubgraphKind.Implementation { val := "calls" }

/-- Propagated edge record 1 → 2 entering with a dirty state and counter. -/
def eProp : Edge :=
  { mk_edge 1 2 SubgraphKind.Propagated { val := "depends_on" } with
    state := EdgeState.Convergent, counter := 7 }

/-- A run that builds two architecture nodes (one a child of the other), two
implementation nodes, and one edge of each subgraph. -/
def opsW : List Op :=
  [Op.addNode nA, Op.addNode nB, Op.addNode nI1, Op.addNode nI2,
   Op.addEdge eArch, Op.addEdge eImpl, Op.addEdge eProp]

/-- The store that run produces: nodes 1-4, edges 1-3. -/
def gW : ReflexionGraph := run ReflexionGraph.new opsW

/-- An edge record naming a source node absent from the store. -/
def eNoSrc : Edge := mk_edge 9 1 SubgraphKind.Architecture { val := "calls" }

/-- A node record handed in with a forged, non-empty children list. -/
def nBad : Node :=
  { id := 0, name := "Rogue", subgraph := SubgraphKind.Architecture,
    parent := none, children := [7] }

/-- What the store holds after inserting the forged record. -/
def gBad : ReflexionGraph := run ReflexionGraph.new [Op.addNode nBad]

/-- A node record with caller-supplied children and a parent, exercising that
add_node overrides only the id field. -/
def nKeep : Node :=
  { id := 42, name := "Keep", subgraph := SubgraphKind.Implementation,
    parent := some 1, children := [7, 8] }

/-- Architecture edge in a post-run dirty state (test
init_states_resets_edge_states_counters_and_clears_propagation_table). -/
def eA0 : Edge :=
  { id := 10, from_ := 1, to_ := 2, kind := { val := "depends_on" },
    subgraph := SubgraphKind.Architecture, state := EdgeState.Undefined,
    counter := 7 }

/-- Implementation edge in a post-run dirty state. -/
def eI0 : Edge :=
  { id := 11, from_ := 1, to_ := 2, kind := { val := "depends_on" },
    subgraph := SubgraphKind.Implementation, state := EdgeState.Specified,
    counter := 9 }

/-- Propagated edge in a post-run dirty state. -/
def eP0 : Edge :=
  { id := 12, from_ := 1, to_ := 2, kind := { val := "depends_on" },
    subgraph := SubgraphKind.Propagated, state := EdgeState.Specified,
    counter := 3 }

/-- A messy pre-reset store with wrong states, wrong counters and a stale
propagation-table entry, as the Rust test fabricates it. -/
def g0 : ReflexionGraph :=
  { nodes := [], edges := [(10, eA0), (11, eI0), (12, eP0)], impl_out := [],
    arch_out := [], maps_to := [], propagation_table := [(12, [])],
    next_node_id := 1, next_edge_id := 1 }

/-! ## Lemmas on the association-list map model -/

theorem hmGet_append_of_none {α β : Type} [DecidableEq α] {m : Map α β}
    (m' : Map α β) {a : α} (h : hmGet m a = none) :
    hmGet (m ++ m') a = hmGet m' a := by
  induction m with
  | nil => rfl
  | cons p m ih =>
    obtain ⟨k, v⟩ := p
    by_cases hak : a = k
    · simp [hmGet, hak] at h
    · simp only [hmGet, hak, if_false, List.cons_append] at h ⊢
      exact ih h

theorem hmGet_append_of_some {α β : Type} [DecidableEq α] {m : Map α β}
    (m' : Map α β) {a : α} {v : β} (h : hmGet m a = some v) :
    hmGet (m ++ m') a = some v := by
  induction m with
  | nil => simp [hmGet] at h
  | cons p m ih =>
    obtain ⟨k, w⟩ := p
    by_cases hak : a = k
    · simp only [hmGet, hak, if_true, List.cons_append] at h ⊢
      simpa using h
    · simp only [hmGet, hak, if_false, List.cons_append] at h ⊢
      exact ih h

theorem hmGet_erase {α β : Type} [DecidableEq α] (m : Map α β) (k a : α) :
    hmGet (hmErase m k) a = if a = k then none else hmGet m a := by
  induction m with
  | nil => simp [hmErase, hmGet]
  | cons p m ih =>
    obtain ⟨b, v⟩ := p
    by_cases hbk : b = k
    · simp only [hmErase, if_pos hbk]
      rw [ih]
      by_cases hab : a = k
      · simp [hab]
      · have hab2 : ¬ a = b := fun h => hab (h.trans hbk)
        simp [hab, hab2, hmGet]
    · simp only [hmErase, if_neg hbk]
      by_cases hab : a = b
      · have hak : ¬ a = k := fun h => hbk (hab.symm.trans h)
        simp [hmGet, hab, hbk, hak]
      · simp only [hmGet, if_neg hab]
        exact ih

theorem hmGet_insert {α β : Type} [DecidableEq α] (m : Map α β) (k a : α) (v : β) :
    hmGet (hmInsert m k v) a = if a = k then some v else hmGet m a := by
  unfold hmInsert
  by_cases hak : a = k
  · subst hak
    have h0 : hmGet (hmErase m a) a = none := by simp [hmGet_erase]
    rw [hmGet_append_of_none _ h0]
    simp [hmGet]
  · have h1 : hmGet (hmErase m k) a = hmGet m a := by simp [hmGet_erase, hak]
    cases h2 : hmGet m a with
    | none =>
      rw [hmGet_append_of_none]
      · simp [hmGet, hak]
      · rw [h1, h2]
    | some w =>
      rw [hmGet_append_of_some _ (h1.trans h2)]
      simp [hak]

theorem hmGet_update {α β : Type} [DecidableEq α] (m : Map α β) (k a : α) (f : β → β) :
    hmGet (hmUpdate m k f) a = if a = k then (hmGet m a).map f else hmGet m a := by
  induction m with
  | nil => simp [hmUpdate, hmGet]
  | cons p m ih =>
    obtain ⟨b, v⟩ := p
    by_cases hbk : b = k
    · simp only [hmUpdate, if_pos hbk]
      by_cases hab : a = b
      · simp [hmGet, hab, hbk]
      · simp only [hmGet, if_neg hab]
        exact ih
    · simp only [hmUpdate, if_neg hbk]
      by_cases hab : a = b
      · simp [hmGet, hab, hbk]
      · simp only [hmGet, if_neg hab]
        exact ih

theorem hmGet_mapVals {α β : Type} [DecidableEq α] (f : β → β) (m : Map α β) (a : α) :
    hmGet (hmMapVals f m) a = (hmGet m a).map f := by
  induction m with
  | nil => simp [hmMapVals, hmGet]
  | cons p m ih =>
    obtain ⟨b, v⟩ := p
    by_cases hab : a = b
    · simp [hmMapVals, hmGet, hab]
    · simp [hmMapVals, hmGet, hab] at ih ⊢; exact ih

theorem hmGet_pushEntry_self {α β : Type} [DecidableEq α] (m : Map α (List β))
    (k : α) (v : β) :
    hmGet (hmPushEntry m k v) k = some ((hmGet m k).getD [] ++ [v]) := by
  unfold hmPushEntry
  cases h : hmGet m k with
  | none => simp [hmGet_insert, h]
  | some l => simp [hmGet_update, h]

theorem hmGet_pushEntry_ne {α β : Type} [DecidableEq α] (m : Map α (List β))
    {k a : α} (v : β) (h : ¬ a = k) :
    hmGet (hmPushEntry m k v) a = hmGet m a := by
  unfold hmPushEntry
  cases h2 : hmGet m k with
  | none => simp [hmGet_insert, h]
  | some l => simp [hmGet_update, h]

theorem hmGet_retainAt {α β : Type} [DecidableEq α] [DecidableEq β]
    (m : Map α (List β)) (k a : α) (x : β) :
    hmGet (hmRetainAt m k x) a =
      if a = k then (hmGet m a).map (fun l => l.filter (fun y => decide (¬ y = x)))
      else hmGet m a := by
  unfold hmRetainAt
  exact hmGet_update m k a _

theorem mem_of_hmGet {α β : Type} [DecidableEq α] {m : Map α β} {k : α} {v : β}
    (h : hmGet m k = some v) : (k, v) ∈ m := by
  induction m with
  | nil => simp [hmGet] at h
  | cons p m ih =>
    obtain ⟨b, w⟩ := p
    by_cases hab : k = b
    · subst hab
      simp [hmGet] at h
      simp [h]
    · simp only [hmGet, hab, if_false] at h
      exact List.mem_cons_of_mem _ (ih h)

theorem hmGet_of_mem {α β : Type} [DecidableEq α] {m : Map α β} {k : α} {v : β}
    (hnd : hmKeysNodup m) (h : (k, v) ∈ m) : hmGet m k = some v := by
  induction m with
  | nil => simp at h
  | cons p m ih =>
    obtain ⟨b, w⟩ := p
    have hnd0 : (b :: m.map Prod.fst).Nodup := by
      simpa [hmKeysNodup] using hnd
    have hnd1 := List.nodup_cons.mp hnd0
    have hnd' : hmKeysNodup m := hnd1.2
    rcases List.mem_cons.mp h with h1 | h1
    · cases h1
      simp [hmGet]
    · have hkb : ¬ k = b := by
        intro he
        exact hnd1.1 (he ▸ List.mem_map.mpr ⟨(k, v), h1, rfl⟩)
      simp only [hmGet, if_neg hkb]
      exact ih hnd' h1

theorem hmErase_sublist {α β : Type} [DecidableEq α] (m : Map α β) (k : α) :
    (hmErase m k).Sublist m := by
  induction m with
  | nil => simp [hmErase]
  | cons p m ih =>
    obtain ⟨b, v⟩ := p
    by_cases hbk : b = k
    · simp only [hmErase, hbk, if_true]
      exact ih.cons _
    · simp only [hmErase, hbk, if_false]
      exact ih.cons₂ _

theorem hmKeysNodup_erase {α β : Type} [DecidableEq α] {m : Map α β}
    (hnd : hmKeysNodup m) (k : α) : hmKeysNodup (hmErase m k) :=
  ((hmErase_sublist m k).map Prod.fst).nodup hnd

theorem not_mem_keys_erase {α β : Type} [DecidableEq α] (m : Map α β) (k : α) :
    ¬ k ∈ (hmErase m k).map Prod.fst := by
  induction m with
  | nil => simp [hmErase]
  | cons p m ih =>
    obtain ⟨b, v⟩ := p
    by_cases hbk : b = k
    · simpa [hmErase, hbk] using ih
    · simp only [hmErase, hbk, if_false, List.map_cons, List.mem_cons]
      rintro (h | h)
      · exact hbk h.symm
      · exact ih h

theorem hmKeysNodup_insert {α β : Type} [DecidableEq α] {m : Map α β}
    (hnd : hmKeysNodup m) (k : α) (v : β) : hmKeysNodup (hmInsert m k v) := by
  unfold hmInsert hmKeysNodup
  rw [List.map_append]
  apply List.Nodup.append (hmKeysNodup_erase hnd k) (by simp)
  intro x hx hy
  have hxk : x = k := by simpa using hy
  exact absurd (hxk ▸ hx) (not_mem_keys_erase m k)

theorem hmKeys_update {α β : Type} [DecidableEq α] (m : Map α β) (k : α) (f : β → β) :
    (hmUpdate m k f).map Prod.fst = m.map Prod.fst := by
  induction m with
  | nil => rfl
  | cons p m ih =>
    obtain ⟨b, v⟩ := p
    by_cases hbk : b = k <;> simp [hmUpdate, hbk, ih]

theorem hmKeysNodup_update {α β : Type} [DecidableEq α] {m : Map α β}
    (hnd : hmKeysNodup m) (k : α) (f : β → β) : hmKeysNodup (hmUpdate m k f) := by
  unfold hmKeysNodup
  rw [hmKeys_update]
  exact hnd

theorem hmKeysNodup_mapVals {α β : Type} [DecidableEq α] {m : Map α β}
    (hnd : hmKeysNodup m) (f : β → β) : hmKeysNodup (hmMapVals f m) := by
  unfold hmKeysNodup hmMapVals
  rw [List.map_map]
  exact hnd

theorem hmKeysNodup_pushEntry {α β : Type} [DecidableEq α] {m : Map α (List β)}
    (hnd : hmKeysNodup m) (k : α) (v : β) : hmKeysNodup (hmPushEntry m k v) := by
  unfold hmPushEntry
  cases hmGet m k with
  | none => exact hmKeysNodup_insert hnd k [v]
  | some l => exact hmKeysNodup_update hnd k _

/-! ## Closed forms of the operations -/

theorem add_node_go_eq (g : ReflexionGraph) (n : Node) :
    add_node_go g n =
      (Except.ok g.next_node_id,
        { g with
          next_node_id := g.next_node_id + 1,
          nodes :=
            match n.parent with
            | some parent_id =>
              hmUpdate (hmInsert g.nodes g.next_node_id { n with id := g.next_node_id })
                parent_id
                (fun p => { p with children := p.children ++ [g.next_node_id] })
            | none => hmInsert g.nodes g.next_node_id { n with id := g.next_node_id } }) := by
  unfold add_node_go
  simp only [hmGet_insert, if_pos rfl, Option.some_bind]
  cases n.parent <;> rfl

theorem add_node_cases (g : ReflexionGraph) (n : Node) :
    (∃ p, n.parent = some p ∧ hmContains g.nodes p = false ∧
      g.add_node n = (Except.error (GraphError.ParentNotFound p), g)) ∨
    ((∀ p, n.parent = some p → hmContains g.nodes p = true) ∧
      g.add_node n = add_node_go g n) := by
  unfold ReflexionGraph.add_node
  cases hp : n.parent with
  | none => exact Or.inr ⟨fun p h => by simp at h, rfl⟩
  | some p =>
    by_cases hc : hmContains g.nodes p = true
    · exact Or.inr ⟨fun q h => by obtain rfl : p = q := Option.some_inj.mp h; exact hc,
        by simp [hc]⟩
    · refine Or.inl ⟨p, rfl, by simpa using hc, ?_⟩
      simp [hc]

theorem add_edge_go_eq (g : ReflexionGraph) (e : Edge) :
    add_edge_go g e =
      (Except.ok g.next_edge_id,
        { g with
          next_edge_id := g.next_edge_id + 1,
          edges := hmInsert g.edges g.next_edge_id { e with id := g.next_edge_id },
          impl_out :=
            if e.subgraph = SubgraphKind.Implementation
            then hmPushEntry g.impl_out e.from_ g.next_edge_id
            else g.impl_out,
          arch_out :=
            if e.subgraph = SubgraphKind.Implementation
            then g.arch_out
            else hmPushEntry g.arch_out e.from_ g.next_edge_id }) := by
  unfold add_edge_go
  cases hs : e.subgraph <;> simp [hs]

theorem add_edge_cases (g : ReflexionGraph) (e : Edge) :
    (hmContains g.nodes e.from_ = false ∧
      g.add_edge e = (Except.error (GraphError.NodeNotFound e.from_), g)) ∨
    (hmContains g.nodes e.from_ = true ∧ hmContains g.nodes e.to_ = false ∧
      g.add_edge e = (Except.error (GraphError.NodeNotFound e.to_), g)) ∨
    (hmContains g.nodes e.from_ = true ∧ hmContains g.nodes e.to_ = true ∧
      g.add_edge e = add_edge_go g e) := by
  unfold ReflexionGraph.add_edge
  by_cases hf : hmContains g.nodes e.from_ = true
  · by_cases ht : hmContains g.nodes e.to_ = true
    · exact Or.inr (Or.inr ⟨hf, ht, by simp [hf, ht]⟩)
    · exact Or.inr (Or.inl ⟨hf, by simpa using ht, by simp [hf, ht]⟩)
  · exact Or.inl ⟨by simpa using hf, by simp [hf]⟩

/-! ## The removal loop of clear_propagated_edges -/

theorem removeEdgeStep_edges_get (g : ReflexionGraph) (x i : EdgeId) :
    hmGet (removeEdgeStep g x).edges i = if i = x then none else hmGet g.edges i := by
  unfold removeEdgeStep
  cases hx : hmGet g.edges x with
  | none =>
    by_cases hix : i = x
    · subst hix; simp [hx]
    · simp [hix]
  | some e => simp [hmGet_erase]

theorem removeEdgeStep_frame (g : ReflexionGraph) (x : EdgeId) :
    (removeEdgeStep g x).nodes = g.nodes ∧
    (removeEdgeStep g x).maps_to = g.maps_to ∧
    (removeEdgeStep g x).next_node_id = g.next_node_id ∧
    (removeEdgeStep g x).next_edge_id = g.next_edge_id := by
  unfold removeEdgeStep
  cases hmGet g.edges x <;> simp

theorem removeEdgeStep_prop_none (g : ReflexionGraph) (x i : EdgeId)
    (h : hmGet g.propagation_table i = none) :
    hmGet (removeEdgeStep g x).propagation_table i = none := by
  unfold removeEdgeStep
  cases hmGet g.edges x with
  | none => exact h
  | some e => simp [hmGet_erase, h]

theorem removeEdgeStep_prop_self (g : ReflexionGraph) (x : EdgeId)
    (h : (hmGet g.edges x).isSome = true) :
    hmGet (removeEdgeStep g x).propagation_table x = none := by
  unfold removeEdgeStep
  cases hx : hmGet g.edges x with
  | none => rw [hx] at h; simp at h
  | some e => simp [hmGet_erase]

theorem foldRemove_edges_get (l : List EdgeId) (g : ReflexionGraph) (i : EdgeId) :
    hmGet ((l.foldl removeEdgeStep g).edges) i =
      if i ∈ l then none else hmGet g.edges i := by
  induction l generalizing g with
  | nil => simp
  | cons x l ih =>
    simp only [List.foldl_cons]
    rw [ih, removeEdgeStep_edges_get]
    by_cases hil : i ∈ l
    · simp [hil]
    · by_cases hix : i = x
      · simp [hil, hix]
      · simp [hil, hix]

theorem foldRemove_frame (l : List EdgeId) (g : ReflexionGraph) :
    ((l.foldl removeEdgeStep g).nodes = g.nodes ∧
     (l.foldl removeEdgeStep g).maps_to = g.maps_to) ∧
    (l.foldl removeEdgeStep g).next_node_id = g.next_node_id ∧
    (l.foldl removeEdgeStep g).next_edge_id = g.next_edge_id := by
  induction l generalizing g with
  | nil => simp
  | cons x l ih =>
    simp only [List.foldl_cons]
    obtain ⟨⟨h1, h2⟩, h3, h4⟩ := ih (removeEdgeStep g x)
    obtain ⟨s1, s2, s3, s4⟩ := removeEdgeStep_frame g x
    exact ⟨⟨h1.trans s1, h2.trans s2⟩, h3.trans s3, h4.trans s4⟩

theorem foldRemove_prop_none (l : List EdgeId) (g : ReflexionGraph) (i : EdgeId)
    (h : hmGet g.propagation_table i = none) :
    hmGet ((l.foldl removeEdgeStep g).propagation_table) i = none := by
  induction l generalizing g with
  | nil => exact h
  | cons x l ih =>
    simp only [List.foldl_cons]
    exact ih _ (removeEdgeStep_prop_none g x i h)

theorem foldRemove_prop_mem (l : List EdgeId) (g : ReflexionGraph) (i : EdgeId)
    (hnd : l.Nodup) (hpres : ∀ j ∈ l, (hmGet g.edges j).isSome = true) (hi : i ∈ l) :
    hmGet ((l.foldl removeEdgeStep g).propagation_table) i = none := by
  induction l generalizing g with
  | nil => simp at hi
  | cons x l ih =>
    simp only [List.foldl_cons]
    have hnd1 := List.nodup_cons.mp hnd
    rcases List.mem_cons.mp hi with h1 | h1
    · subst h1
      exact foldRemove_prop_none l _ i (removeEdgeStep_prop_self g i (hpres i (by simp)))
    · refine ih _ hnd1.2 (fun j hj => ?_) h1
      have hjx : ¬ j = x := fun he => hnd1.1 (he ▸ hj)
      rw [removeEdgeStep_edges_get, if_neg hjx]
      exact hpres j (by simp [hj])

/-! ## The collected propagated ids -/

theorem mem_propagatedIds_iff (g : ReflexionGraph) (hnd : hmKeysNodup g.edges)
    (i : EdgeId) :
    i ∈ propagatedIds g ↔
      ∃ e, hmGet g.edges i = some e ∧ e.subgraph = SubgraphKind.Propagated := by
  unfold propagatedIds
  constructor
  · intro h
    rcases List.mem_map.mp h with ⟨⟨j, e⟩, hmem, hj⟩
    have hf := List.mem_filter.mp hmem
    have hji : j = i := by simpa using hj
    subst hji
    exact ⟨e, hmGet_of_mem hnd hf.1, by simpa using hf.2⟩
  · rintro ⟨e, hg, hs⟩
    exact List.mem_map.mpr ⟨(i, e), List.mem_filter.mpr ⟨mem_of_hmGet hg, by simpa⟩, rfl⟩

theorem propagatedIds_nodup (g : ReflexionGraph) (hnd : hmKeysNodup g.edges) :
    (propagatedIds g).Nodup := by
  unfold propagatedIds
  exact ((List.filter_sublist g.edges).map Prod.fst).nodup hnd

theorem propagatedIds_present (g : ReflexionGraph) (hnd : hmKeysNodup g.edges) :
    ∀ j ∈ propagatedIds g, (hmGet g.edges j).isSome = true := by
  intro j hj
  rcases (mem_propagatedIds_iff g hnd j).mp hj with ⟨e, he, _⟩
  simp [he]
/-! ## Preservation of the structural invariant -/

theorem inv0_new : Inv0 ReflexionGraph.new := by
  refine ⟨?_, ?_, ?_, ?_, ?_, ?_, ?_, ?_, ?_, ?_⟩ <;>
    simp [ReflexionGraph.new, hmKeysNodup, hmGet]

theorem not_contains_next_node (g : ReflexionGraph) (h : Inv0 g) :
    hmContains g.nodes g.next_node_id = false := by
  unfold hmContains
  cases hg : hmGet g.nodes g.next_node_id with
  | none => rfl
  | some v => exact absurd (h.node_key_lt _ _ hg) (lt_irrefl _)

theorem not_contains_next_edge (g : ReflexionGraph) (h : Inv0 g) :
    hmContains g.edges g.next_edge_id = false := by
  unfold hmContains
  cases hg : hmGet g.edges g.next_edge_id with
  | none => rfl
  | some v => exact absurd (h.edge_key_lt _ _ hg) (lt_irrefl _)

theorem inv0_add_node (g : ReflexionGraph) (n : Node) (h : Inv0 g) :
    Inv0 (g.add_node n).2 := by
  rcases add_node_cases g n with ⟨p, hp, hc, heq⟩ | ⟨hpar, heq⟩
  · rw [heq]; exact h
  · rw [heq, add_node_go_eq]
    cases hp : n.parent with
    | none =>
      refine ⟨hmKeysNodup_insert h.nodes_nodup _ _, h.edges_nodup, ?_, ?_,
        h.edge_key_lt, h.edge_id_eq, h.impl_adj, h.arch_adj,
        le_trans h.node_pos (Nat.le_succ _), h.edge_pos⟩
      · intro i nd hget
        rw [hmGet_insert] at hget
        by_cases hi : i = g.next_node_id
        · subst hi; exact Nat.lt_succ_self _
        · rw [if_neg hi] at hget
          exact Nat.lt_succ_of_lt (h.node_key_lt _ _ hget)
      · intro i nd hget
        rw [hmGet_insert] at hget
        by_cases hi : i = g.next_node_id
        · subst hi
          simp at hget
          rw [← hget]
        · rw [if_neg hi] at hget
          exact h.node_id_eq _ _ hget
    | some pid =>
      refine ⟨hmKeysNodup_update (hmKeysNodup_insert h.nodes_nodup _ _) _ _,
        h.edges_nodup, ?_, ?_,
        h.edge_key_lt, h.edge_id_eq, h.impl_adj, h.arch_adj,
        le_trans h.node_pos (Nat.le_succ _), h.edge_pos⟩
      · intro i nd hget
        rw [hmGet_update] at hget
        by_cases hip : i = pid
        · rw [if_pos hip] at hget
          rcases Option.map_eq_some.mp hget with ⟨nd0, hnd0, _⟩
          rw [hmGet_insert] at hnd0
          by_cases hi : i = g.next_node_id
          · subst hi; exact Nat.lt_succ_self _
          · rw [if_neg hi] at hnd0
            exact Nat.lt_succ_of_lt (h.node_key_lt _ _ hnd0)
        · rw [if_neg hip, hmGet_insert] at hget
          by_cases hi : i = g.next_node_id
          · subst hi; exact Nat.lt_succ_self _
          · rw [if_neg hi] at hget
            exact Nat.lt_succ_of_lt (h.node_key_lt _ _ hget)
      · intro i nd hget
        rw [hmGet_update] at hget
        by_cases hip : i = pid
        · rw [if_pos hip] at hget
          rcases Option.map_eq_some.mp hget with ⟨nd0, hnd0, hmapped⟩
          rw [hmGet_insert] at hnd0
          subst hmapped
          by_cases hi : i = g.next_node_id
          · subst hi
            simp at hnd0
            rw [← hnd0]
          · rw [if_neg hi] at hnd0
            simpa using h.node_id_eq _ _ hnd0
        · rw [if_neg hip, hmGet_insert] at hget
          by_cases hi : i = g.next_node_id
          · subst hi
            simp at hget
            rw [← hget]
          · rw [if_neg hi] at hget
            exact h.node_id_eq _ _ hget

theorem inv0_add_edge (g : ReflexionGraph) (e : Edge) (h : Inv0 g) :
    Inv0 (g.add_edge e).2 := by
  rcases add_edge_cases g e with ⟨_, heq⟩ | ⟨_, _, heq⟩ | ⟨_, _, heq⟩
  · rw [heq]; exact h
  · rw [heq]; exact h
  · rw [heq, add_edge_go_eq]
    have hedge_lt : ∀ i ed,
        hmGet (hmInsert g.edges g.next_edge_id { e with id := g.next_edge_id }) i =
          some ed → i < g.next_edge_id + 1 := by
      intro i ed hget
      rw [hmGet_insert] at hget
      by_cases hi : i = g.next_edge_id
      · subst hi; exact Nat.lt_succ_self _
      · rw [if_neg hi] at hget
        exact Nat.lt_succ_of_lt (h.edge_key_lt _ _ hget)
    have hedge_id : ∀ i ed,
        hmGet (hmInsert g.edges g.next_edge_id { e with id := g.next_edge_id }) i =
          some ed → ed.id = i := by
      intro i ed hget
      rw [hmGet_insert] at hget
      by_cases hi : i = g.next_edge_id
      · subst hi
        simp at hget
        rw [← hget]
      · rw [if_neg hi] at hget
        exact h.edge_id_eq _ _ hget
    have hold : ∀ x ed, hmGet g.edges x = some ed →
        hmGet (hmInsert g.edges g.next_edge_id { e with id := g.next_edge_id }) x =
          some ed := by
      intro x ed hget
      rw [hmGet_insert]
      have hx : ¬ x = g.next_edge_id := fun hc =>
        absurd (h.edge_key_lt _ _ (hc ▸ hget)) (lt_irrefl _)
      rw [if_neg hx]
      exact hget
    by_cases hs : e.subgraph = SubgraphKind.Implementation
    · rw [if_pos hs, if_pos hs]
      refine ⟨h.nodes_nodup, hmKeysNodup_insert h.edges_nodup _ _,
        h.node_key_lt, h.node_id_eq, hedge_lt, hedge_id, ?_, ?_,
        h.node_pos, le_trans h.edge_pos (Nat.le_succ _)⟩
      · intro v l hget x hx
        by_cases hv : v = e.from_
        · subst hv
          rw [hmGet_pushEntry_self] at hget
          have hx2 : x ∈ (hmGet g.impl_out e.from_).getD [] ++ [g.next_edge_id] := by
            rw [Option.some_inj.mp hget]
            exact hx
          rcases List.mem_append.mp hx2 with hx3 | hx3
          · cases hgold : hmGet g.impl_out e.from_ with
            | none => rw [hgold] at hx3; simp at hx3
            | some lold =>
              rw [hgold] at hx3
              rcases h.impl_adj _ _ hgold x hx3 with ⟨ed, hed, hfr, hsg⟩
              exact ⟨ed, hold _ _ hed, hfr, hsg⟩
          · have hx4 : x = g.next_edge_id := by simpa using hx3
            subst hx4
            refine ⟨{ e with id := g.next_edge_id }, ?_, rfl, hs⟩
            rw [hmGet_insert, if_pos rfl]
        · rw [hmGet_pushEntry_ne _ _ hv] at hget
          rcases h.impl_adj _ _ hget x hx with ⟨ed, hed, hfr, hsg⟩
          exact ⟨ed, hold _ _ hed, hfr, hsg⟩
      · intro v l hget x hx
        rcases h.arch_adj _ _ hget x hx with ⟨ed, hed, hfr, hsg⟩
        exact ⟨ed, hold _ _ hed, hfr, hsg⟩
    · rw [if_neg hs, if_neg hs]
      have hs2 : e.subgraph = SubgraphKind.Architecture ∨
          e.subgraph = SubgraphKind.Propagated := by
        cases hsg : e.subgraph
        · exact Or.inl rfl
        · exact absurd hsg hs
        · exact Or.inr rfl
      refine ⟨h.nodes_nodup, hmKeysNodup_insert h.edges_nodup _ _,
        h.node_key_lt, h.node_id_eq, hedge_lt, hedge_id, ?_, ?_,
        h.node_pos, le_trans h.edge_pos (Nat.le_succ _)⟩
      · intro v l hget x hx
        rcases h.impl_adj _ _ hget x hx with ⟨ed, hed, hfr, hsg⟩
        exact ⟨ed, hold _ _ hed, hfr, hsg⟩
      · intro v l hget x hx
        by_cases hv : v = e.from_
        · subst hv
          rw [hmGet_pushEntry_self] at hget
          have hx2 : x ∈ (hmGet g.arch_out e.from_).getD [] ++ [g.next_edge_id] := by
            rw [Option.some_inj.mp hget]
            exact hx
          rcases List.mem_append.mp hx2 with hx3 | hx3
          · cases hgold : hmGet g.arch_out e.from_ with
            | none => rw [hgold] at hx3; simp at hx3
            | some lold =>
              rw [hgold] at hx3
              rcases h.arch_adj _ _ hgold x hx3 with ⟨ed, hed, hfr, hsg⟩
              exact ⟨ed, hold _ _ hed, hfr, hsg⟩
          · have hx4 : x = g.next_edge_id := by simpa using hx3
            subst hx4
            refine ⟨{ e with id := g.next_edge_id }, ?_, rfl, ?_⟩
            · rw [hmGet_insert, if_pos rfl]
            · simpa using hs2
        · rw [hmGet_pushEntry_ne _ _ hv] at hget
          rcases h.arch_adj _ _ hget x hx with ⟨ed, hed, hfr, hsg⟩
          exact ⟨ed, hold _ _ hed, hfr, hsg⟩

theorem resetEdge_fields (e : Edge) :
    (resetEdge e).id = e.id ∧ (resetEdge e).from_ = e.from_ ∧
    (resetEdge e).to_ = e.to_ ∧ (resetEdge e).kind = e.kind ∧
    (resetEdge e).subgraph = e.subgraph ∧ (resetEdge e).counter = 0 :=
  ⟨rfl, rfl, rfl, rfl, rfl, rfl⟩

theorem inv0_init (g : ReflexionGraph) (h : Inv0 g) : Inv0 g.init_states := by
  unfold ReflexionGraph.init_states
  refine ⟨h.nodes_nodup, hmKeysNodup_mapVals h.edges_nodup _,
    h.node_key_lt, h.node_id_eq, ?_, ?_, ?_, ?_, h.node_pos, h.edge_pos⟩
  · intro i ed hget
    rw [hmGet_mapVals] at hget
    rcases Option.map_eq_some.mp hget with ⟨e0, he0, _⟩
    exact h.edge_key_lt _ _ he0
  · intro i ed hget
    rw [hmGet_mapVals] at hget
    rcases Option.map_eq_some.mp hget with ⟨e0, he0, hmapped⟩
    rw [← hmapped]
    exact h.edge_id_eq i e0 he0
  · intro v l hget x hx
    rcases h.impl_adj _ _ hget x hx with ⟨ed, hed, hfr, hsg⟩
    refine ⟨resetEdge ed, ?_, hfr, hsg⟩
    rw [hmGet_mapVals, hed]
    rfl
  · intro v l hget x hx
    rcases h.arch_adj _ _ hget x hx with ⟨ed, hed, hfr, hsg⟩
    refine ⟨resetEdge ed, ?_, hfr, hsg⟩
    rw [hmGet_mapVals, hed]
    rfl

theorem inv0_removeStep (g : ReflexionGraph) (x : EdgeId) (h : Inv0 g) :
    Inv0 (removeEdgeStep g x) := by
  unfold removeEdgeStep
  cases hx : hmGet g.edges x with
  | none => exact h
  | some e =>
    refine ⟨h.nodes_nodup, hmKeysNodup_erase h.edges_nodup x,
      h.node_key_lt, h.node_id_eq, ?_, ?_, ?_, ?_, h.node_pos, h.edge_pos⟩
    · intro i ed hget
      rw [hmGet_erase] at hget
      by_cases hix : i = x
      · rw [if_pos hix] at hget; cases hget
      · rw [if_neg hix] at hget
        exact h.edge_key_lt _ _ hget
    · intro i ed hget
      rw [hmGet_erase] at hget
      by_cases hix : i = x
      · rw [if_pos hix] at hget; cases hget
      · rw [if_neg hix] at hget
        exact h.edge_id_eq _ _ hget
    · intro v l hget x2 hx2
      rw [hmGet_retainAt] at hget
      by_cases hv : v = e.from_
      · rw [if_pos hv] at hget
        rcases Option.map_eq_some.mp hget with ⟨l0, hl0, hfl⟩
        rw [← hfl] at hx2
        have hx3 := List.mem_filter.mp hx2
        have hx2x : ¬ x2 = x := by simpa using hx3.2
        rcases h.impl_adj _ _ hl0 x2 hx3.1 with ⟨ed, hed, hfr, hsg⟩
        refine ⟨ed, ?_, hfr, hsg⟩
        rw [hmGet_erase, if_neg hx2x]
        exact hed
      · rw [if_neg hv] at hget
        rcases h.impl_adj _ _ hget x2 hx2 with ⟨ed, hed, hfr, hsg⟩
        have hx2x : ¬ x2 = x := by
          intro hc
          rw [hc, hx] at hed
          exact hv (hfr ▸ (Option.some_inj.mp hed) ▸ rfl)
        refine ⟨ed, ?_, hfr, hsg⟩
        rw [hmGet_erase, if_neg hx2x]
        exact hed
    · intro v l hget x2 hx2
      rw [hmGet_retainAt] at hget
      by_cases hv : v = e.from_
      · rw [if_pos hv] at hget
        rcases Option.map_eq_some.mp hget with ⟨l0, hl0, hfl⟩
        rw [← hfl] at hx2
        have hx3 := List.mem_filter.mp hx2
        have hx2x : ¬ x2 = x := by simpa using hx3.2
        rcases h.arch_adj _ _ hl0 x2 hx3.1 with ⟨ed, hed, hfr, hsg⟩
        refine ⟨ed, ?_, hfr, hsg⟩
        rw [hmGet_erase, if_neg hx2x]
        exact hed
      · rw [if_neg hv] at hget
        rcases h.arch_adj _ _ hget x2 hx2 with ⟨ed, hed, hfr, hsg⟩
        have hx2x : ¬ x2 = x := by
          intro hc
          rw [hc, hx] at hed
          exact hv (hfr ▸ (Option.some_inj.mp hed) ▸ rfl)
        refine ⟨ed, ?_, hfr, hsg⟩
        rw [hmGet_erase, if_neg hx2x]
        exact hed

theorem inv0_foldRemove (l : List EdgeId) (g : ReflexionGraph) (h : Inv0 g) :
    Inv0 (l.foldl removeEdgeStep g) := by
  induction l generalizing g with
  | nil => exact h
  | cons x l ih =>
    simp only [List.foldl_cons]
    exact ih _ (inv0_removeStep g x h)

theorem inv0_clear (g : ReflexionGraph) (h : Inv0 g) :
    Inv0 g.clear_propagated_edges :=
  inv0_foldRemove _ g h

theorem inv0_applyOp (g : ReflexionGraph) (op : Op) (h : Inv0 g) :
    Inv0 (applyOp g op) := by
  cases op with
  | addNode n => exact inv0_add_node g n h
  | addEdge e => exact inv0_add_edge g e h
  | initStates => exact inv0_init g h
  | clearPropagated => exact inv0_clear g h

theorem inv0_run (ops : List Op) (g : ReflexionGraph) (h : Inv0 g) :
    Inv0 (run g ops) := by
  induction ops generalizing g with
  | nil => exact h
  | cons op ops ih =>
    simp only [run, List.foldl_cons]
    exact ih _ (inv0_applyOp g op h)

theorem inv0_reachable (g : ReflexionGraph) (h : Reachable g) : Inv0 g := by
  rcases h with ⟨ops, rfl⟩
  exact inv0_run ops _ inv0_new

/-! ## Monotonicity of the identity counters -/

theorem applyOp_next_mono (g : ReflexionGraph) (op : Op) :
    g.next_node_id ≤ (applyOp g op).next_node_id ∧
    g.next_edge_id ≤ (applyOp g op).next_edge_id := by
  cases op with
  | addNode n =>
    rcases add_node_cases g n with ⟨p, _, _, heq⟩ | ⟨_, heq⟩
    · simp [applyOp, heq]
    · rw [show applyOp g (Op.addNode n) = (g.add_node n).2 from rfl, heq,
        add_node_go_eq]
      exact ⟨Nat.le_succ _, le_refl _⟩
  | addEdge e =>
    rcases add_edge_cases g e with ⟨_, heq⟩ | ⟨_, _, heq⟩ | ⟨_, _, heq⟩
    · simp [applyOp, heq]
    · simp [applyOp, heq]
    · rw [show applyOp g (Op.addEdge e) = (g.add_edge e).2 from rfl, heq,
        add_edge_go_eq]
      exact ⟨le_refl _, Nat.le_succ _⟩
  | initStates => exact ⟨le_refl _, le_refl _⟩
  | clearPropagated =>
    obtain ⟨_, h3, h4⟩ := foldRemove_frame (propagatedIds g) g
    exact ⟨le_of_eq h3.symm, le_of_eq h4.symm⟩

theorem run_next_mono (ops : List Op) (g : ReflexionGraph) :
    g.next_node_id ≤ (run g ops).next_node_id ∧
    g.next_edge_id ≤ (run g ops).next_edge_id := by
  induction ops generalizing g with
  | nil => exact ⟨le_refl _, le_refl _⟩
  | cons op ops ih =>
    simp only [run, List.foldl_cons]
    obtain ⟨h1, h2⟩ := applyOp_next_mono g op
    obtain ⟨h3, h4⟩ := ih (applyOp g op)
    exact ⟨le_trans h1 h3, le_trans h2 h4⟩

/-! ## Preservation of the parent/child bookkeeping -/

theorem childinv_transfer (g g' : ReflexionGraph) (hn : g'.nodes = g.nodes)
    (hid : g'.next_node_id = g.next_node_id) (h : ChildInv g) : ChildInv g' := by
  refine ⟨?_, ?_, ?_, ?_⟩
  · intro i n p hg hp
    rw [hn] at hg
    rw [hn]
    exact h.parent_present i n p hg hp
  · intro i n hg c hc
    rw [hn] at hg
    rw [hid]
    exact h.children_lt i n hg c hc
  · intro i n hg c hc
    rw [hn] at hg
    rw [hn]
    exact h.child_parent i n hg c hc
  · intro i n c m hg hgc hp
    rw [hn] at hg hgc
    exact h.parent_child_count i n c m hg hgc hp

theorem add_node_go_nodes_none (g : ReflexionGraph) (n : Node) (hp : n.parent = none) :
    (add_node_go g n).2.nodes =
      hmInsert g.nodes g.next_node_id
        { n with id := g.next_node_id, parent := none } := by
  rw [add_node_go_eq, hp]

theorem add_node_go_nodes_some (g : ReflexionGraph) (n : Node) (pid : NodeId)
    (hp : n.parent = some pid) :
    (add_node_go g n).2.nodes =
      hmUpdate
        (hmInsert g.nodes g.next_node_id
          { n with id := g.next_node_id, parent := some pid }) pid
        (fun p => { p with children := p.children ++ [g.next_node_id] }) := by
  rw [add_node_go_eq, hp]

theorem add_node_go_frame (g : ReflexionGraph) (n : Node) :
    (add_node_go g n).2.edges = g.edges ∧
    (add_node_go g n).2.impl_out = g.impl_out ∧
    (add_node_go g n).2.arch_out = g.arch_out ∧
    (add_node_go g n).2.maps_to = g.maps_to ∧
    (add_node_go g n).2.propagation_table = g.propagation_table ∧
    (add_node_go g n).2.next_edge_id = g.next_edge_id ∧
    (add_node_go g n).2.next_node_id = g.next_node_id + 1 ∧
    (add_node_go g n).1 = Except.ok g.next_node_id := by
  rw [add_node_go_eq]
  exact ⟨rfl, rfl, rfl, rfl, rfl, rfl, rfl, rfl⟩

theorem add_edge_go_frame (g : ReflexionGraph) (e : Edge) :
    (add_edge_go g e).2.nodes = g.nodes ∧
    (add_edge_go g e).2.maps_to = g.maps_to ∧
    (add_edge_go g e).2.propagation_table = g.propagation_table ∧
    (add_edge_go g e).2.next_node_id = g.next_node_id ∧
    (add_edge_go g e).2.next_edge_id = g.next_edge_id + 1 ∧
    (add_edge_go g e).2.edges =
      hmInsert g.edges g.next_edge_id { e with id := g.next_edge_id } ∧
    (add_edge_go g e).1 = Except.ok g.next_edge_id := by
  rw [add_edge_go_eq]
  exact ⟨rfl, rfl, rfl, rfl, rfl, rfl, rfl⟩

theorem childinv_new : ChildInv ReflexionGraph.new := by
  refine ⟨?_, ?_, ?_, ?_⟩ <;> (intros i; intros; simp_all [ReflexionGraph.new, hmGet])

theorem childinv_add_node (g : ReflexionGraph) (n : Node) (h0 : Inv0 g)
    (h : ChildInv g) (hwf : n.children = []) : ChildInv (g.add_node n).2 := by
  rcases add_node_cases g n with ⟨p, hp, hc, heq⟩ | ⟨hpar, heq⟩
  · rw [heq]; exact h
  · have hnext : (g.add_node n).2.next_node_id = g.next_node_id + 1 := by
      rw [heq]; exact (add_node_go_frame g n).2.2.2.2.2.2.1
    cases hp : n.parent with
    | none =>
      have hnodes : (g.add_node n).2.nodes =
          hmInsert g.nodes g.next_node_id
            { n with id := g.next_node_id, parent := none } := by
        rw [heq]; exact add_node_go_nodes_none g n hp
      have hget2 : ∀ i, hmGet (g.add_node n).2.nodes i =
          if i = g.next_node_id
          then some { n with id := g.next_node_id, parent := none }
          else hmGet g.nodes i := by
        intro i
        rw [hnodes, hmGet_insert]
      constructor
      · intro i nd p hget hpp
        rw [hget2] at hget
        unfold hmContains
        rw [hget2]
        by_cases hi : i = g.next_node_id
        · rw [if_pos hi] at hget
          have hnd := (Option.some_inj.mp hget).symm
          rw [hnd] at hpp
          cases hpp
        · rw [if_neg hi] at hget
          have hcc := h.parent_present i nd p hget hpp
          unfold hmContains at hcc
          cases hgp : hmGet g.nodes p with
          | none => rw [hgp] at hcc; simp at hcc
          | some r =>
            have hpN : ¬ p = g.next_node_id := fun hcn =>
              absurd (h0.node_key_lt _ _ (hcn ▸ hgp)) (lt_irrefl _)
            rw [if_neg hpN]
            rfl
      · intro i nd hget c hcmem
        rw [hget2] at hget
        rw [hnext]
        by_cases hi : i = g.next_node_id
        · rw [if_pos hi] at hget
          have hnd := (Option.some_inj.mp hget).symm
          rw [hnd] at hcmem
          simp [hwf] at hcmem
        · rw [if_neg hi] at hget
          exact Nat.lt_succ_of_lt (h.children_lt i nd hget c hcmem)
      · intro i nd hget c hcmem
        rw [hget2] at hget
        by_cases hi : i = g.next_node_id
        · rw [if_pos hi] at hget
          have hnd := (Option.some_inj.mp hget).symm
          rw [hnd] at hcmem
          simp [hwf] at hcmem
        · rw [if_neg hi] at hget
          rcases h.child_parent i nd hget c hcmem with ⟨m, hm, hmp⟩
          have hcN : ¬ c = g.next_node_id := fun hcn =>
            absurd (h.children_lt i nd hget c hcmem)
              (by rw [hcn]; exact lt_irrefl _)
          refine ⟨m, ?_, hmp⟩
          rw [hget2, if_neg hcN]
          exact hm
      · intro i nd c m hget hgetc hmp
        rw [hget2] at hget hgetc
        by_cases hci : c = g.next_node_id
        · rw [if_pos hci] at hgetc
          have hm := (Option.some_inj.mp hgetc).symm
          rw [hm] at hmp
          cases hmp
        · rw [if_neg hci] at hgetc
          by_cases hi : i = g.next_node_id
          · exfalso
            have hcc := h.parent_present c m i hgetc hmp
            unfold hmContains at hcc
            cases hgi : hmGet g.nodes i with
            | none => rw [hgi] at hcc; simp at hcc
            | some r => exact absurd (h0.node_key_lt _ _ (hi ▸ hgi)) (lt_irrefl _)
          · rw [if_neg hi] at hget
            exact h.parent_child_count i nd c m hget hgetc hmp
    | some pid =>
      have hcont : hmContains g.nodes pid = true := hpar pid hp
      have hq : ∃ q, hmGet g.nodes pid = some q := by
        unfold hmContains at hcont
        cases hgp : hmGet g.nodes pid with
        | none => rw [hgp] at hcont; simp at hcont
        | some q => exact ⟨q, rfl⟩
      obtain ⟨q, hq⟩ := hq
      have hpidN : ¬ pid = g.next_node_id := fun hcn =>
        absurd (h0.node_key_lt _ _ (hcn ▸ hq)) (lt_irrefl _)
      have hnodes : (g.add_node n).2.nodes =
          hmUpdate
            (hmInsert g.nodes g.next_node_id
              { n with id := g.next_node_id, parent := some pid }) pid
            (fun p => { p with children := p.children ++ [g.next_node_id] }) := by
        rw [heq]; exact add_node_go_nodes_some g n pid hp
      have hget2 : ∀ i, hmGet (g.add_node n).2.nodes i =
          if i = pid then some { q with children := q.children ++ [g.next_node_id] }
          else if i = g.next_node_id
          then some { n with id := g.next_node_id, parent := some pid }
          else hmGet g.nodes i := by
        intro i
        rw [hnodes, hmGet_update, hmGet_insert]
        by_cases hip : i = pid
        · rw [if_pos hip, if_pos hip, if_neg (hip ▸ hpidN), hip, hq]
          rfl
        · rw [if_neg hip, if_neg hip]
      have hcontains2 : ∀ p r, hmGet g.nodes p = some r →
          hmContains (g.add_node n).2.nodes p = true := by
        intro p r hgp
        unfold hmContains
        rw [hget2]
        have hpN : ¬ p = g.next_node_id := fun hcn =>
          absurd (h0.node_key_lt _ _ (hcn ▸ hgp)) (lt_irrefl _)
        by_cases hpd : p = pid
        · rw [if_pos hpd]; rfl
        · rw [if_neg hpd, if_neg hpN, hgp]; rfl
      have hcontains3 : ∀ p, hmContains g.nodes p = true →
          hmContains (g.add_node n).2.nodes p = true := by
        intro p hcp
        unfold hmContains at hcp
        cases hgp : hmGet g.nodes p with
        | none => rw [hgp] at hcp; simp at hcp
        | some r => exact hcontains2 p r hgp
      constructor
      · intro i nd p hget hpp
        rw [hget2] at hget
        by_cases hip : i = pid
        · rw [if_pos hip] at hget
          have hnd := (Option.some_inj.mp hget).symm
          rw [hnd] at hpp
          exact hcontains3 p (h.parent_present pid q p hq hpp)
        · rw [if_neg hip] at hget
          by_cases hi : i = g.next_node_id
          · rw [if_pos hi] at hget
            have hnd := (Option.some_inj.mp hget).symm
            rw [hnd] at hpp
            have hpp2 : pid = p := Option.some_inj.mp hpp
            exact hpp2 ▸ hcontains2 pid q hq
          · rw [if_neg hi] at hget
            exact hcontains3 p (h.parent_present i nd p hget hpp)
      · intro i nd hget c hcmem
        rw [hget2] at hget
        rw [hnext]
        by_cases hip : i = pid
        · rw [if_pos hip] at hget
          have hnd := (Option.some_inj.mp hget).symm
          rw [hnd] at hcmem
          rcases List.mem_append.mp hcmem with hc1 | hc1
          · exact Nat.lt_succ_of_lt (h.children_lt pid q hq c hc1)
          · have hcN : c = g.next_node_id := by simpa using hc1
            rw [hcN]
            exact Nat.lt_succ_self _
        · rw [if_neg hip] at hget
          by_cases hi : i = g.next_node_id
          · rw [if_pos hi] at hget
            have hnd := (Option.some_inj.mp hget).symm
            rw [hnd] at hcmem
            simp [hwf] at hcmem
          · rw [if_neg hi] at hget
            exact Nat.lt_succ_of_lt (h.children_lt i nd hget c hcmem)
      · intro i nd hget c hcmem
        rw [hget2] at hget
        by_cases hip : i = pid
        · rw [if_pos hip] at hget
          have hnd := (Option.some_inj.mp hget).symm
          rw [hnd] at hcmem
          rcases List.mem_append.mp hcmem with hc1 | hc1
          · rcases h.child_parent pid q hq c hc1 with ⟨m, hm, hmp⟩
            have hcN : ¬ c = g.next_node_id := fun hcn =>
              absurd (h.children_lt pid q hq c hc1)
                (by rw [hcn]; exact lt_irrefl _)
            by_cases hcp : c = pid
            · refine ⟨{ q with children := q.children ++ [g.next_node_id] }, ?_, ?_⟩
              · rw [hget2, if_pos hcp]
              · have hmq : m = q := by
                  rw [hcp] at hm
                  exact Option.some_inj.mp (hq.symm.trans hm).symm
                rw [hip]
                show q.parent = some pid
                rw [← hmq]
                exact hmp
            · refine ⟨m, ?_, hip ▸ hmp⟩
              rw [hget2, if_neg hcp, if_neg hcN]
              exact hm
          · have hcN : c = g.next_node_id := by simpa using hc1
            refine ⟨{ n with id := g.next_node_id, parent := some pid }, ?_, ?_⟩
            · rw [hget2, if_neg (fun hcc : c = pid => hpidN (hcc ▸ hcN)), hcN, if_pos rfl]
            · rw [hip]
        · rw [if_neg hip] at hget
          by_cases hi : i = g.next_node_id
          · rw [if_pos hi] at hget
            have hnd := (Option.some_inj.mp hget).symm
            rw [hnd] at hcmem
            simp [hwf] at hcmem
          · rw [if_neg hi] at hget
            rcases h.child_parent i nd hget c hcmem with ⟨m, hm, hmp⟩
            have hcN : ¬ c = g.next_node_id := fun hcn =>
              absurd (h.children_lt i nd hget c hcmem)
                (by rw [hcn]; exact lt_irrefl _)
            by_cases hcp : c = pid
            · refine ⟨{ q with children := q.children ++ [g.next_node_id] }, ?_, ?_⟩
              · rw [hget2, if_pos hcp]
              · have hmq : m = q := by
                  rw [hcp] at hm
                  exact Option.some_inj.mp (hq.symm.trans hm).symm
                show q.parent = some i
                rw [← hmq]
                exact hmp
            · refine ⟨m, ?_, hmp⟩
              rw [hget2, if_neg hcp, if_neg hcN]
              exact hm
      · intro i nd c m hget hgetc hmp
        rw [hget2] at hget hgetc
        have hiN : ∀ md, hmGet g.nodes c = some md → md.parent = some i →
            ¬ i = g.next_node_id := by
          intro md hgc hmd hcn
          have hcc := h.parent_present c md i hgc hmd
          unfold hmContains at hcc
          cases hgi : hmGet g.nodes i with
          | none => rw [hgi] at hcc; simp at hcc
          | some r => exact absurd (h0.node_key_lt _ _ (hcn ▸ hgi)) (lt_irrefl _)
        by_cases hcp : c = pid
        · rw [if_pos hcp] at hgetc
          have hm := (Option.some_inj.mp hgetc).symm
          have hmparent : q.parent = some i := by
            rw [hm] at hmp
            exact hmp
          have hiN2 : ¬ i = g.next_node_id := hiN q (hcp ▸ hq) hmparent
          have hcN : ¬ c = g.next_node_id := hcp ▸ hpidN
          by_cases hip : i = pid
          · rw [if_pos hip] at hget
            have hnd := (Option.some_inj.mp hget).symm
            rw [hnd]
            have hcount := h.parent_child_count pid q c q (hip ▸ hq) (hcp ▸ hq)
              (hip ▸ hmparent)
            simp only [List.count_append]
            rw [hcount]
            have hz : List.count c [g.next_node_id] = 0 := by
              rw [List.count_eq_zero]
              simpa using hcN
            rw [hz]
          · rw [if_neg hip, if_neg hiN2] at hget
            exact h.parent_child_count i nd c q hget (hcp ▸ hq) hmparent
        · rw [if_neg hcp] at hgetc
          by_cases hcN : c = g.next_node_id
          · rw [if_pos hcN] at hgetc
            have hm := (Option.some_inj.mp hgetc).symm
            have hmparent : some pid = some i := by
              rw [hm] at hmp
              exact hmp
            have hipid : pid = i := Option.some_inj.mp hmparent
            rw [← hipid] at hget
            rw [if_pos rfl] at hget
            have hnd := (Option.some_inj.mp hget).symm
            rw [hnd]
            simp only [List.count_append]
            have hz : List.count c q.children = 0 := by
              rw [List.count_eq_zero]
              intro hcm
              exact absurd (h.children_lt pid q hq c hcm)
                (by rw [hcN]; exact lt_irrefl _)
            rw [hz]
            rw [hcN]
            simp
          · rw [if_neg hcN] at hgetc
            have hiN2 : ¬ i = g.next_node_id := hiN m hgetc hmp
            by_cases hip : i = pid
            · rw [if_pos hip] at hget
              have hnd := (Option.some_inj.mp hget).symm
              rw [hnd]
              simp only [List.count_append]
              have hcount := h.parent_child_count pid q c m (hip ▸ hq) hgetc
                (hip ▸ hmp)
              rw [hcount]
              have hz : List.count c [g.next_node_id] = 0 := by
                rw [List.count_eq_zero]
                simpa using hcN
              rw [hz]
            · rw [if_neg hip, if_neg hiN2] at hget
              exact h.parent_child_count i nd c m hget hgetc hmp

theorem childinv_applyOp (g : ReflexionGraph) (op : Op) (h0 : Inv0 g)
    (h : ChildInv g) (hwf : wfOp op) : ChildInv (applyOp g op) := by
  cases op with
  | addNode n => exact childinv_add_node g n h0 h hwf
  | addEdge e =>
    show ChildInv (g.add_edge e).2
    rcases add_edge_cases g e with ⟨_, heq⟩ | ⟨_, _, heq⟩ | ⟨_, _, heq⟩
    · rw [heq]; exact h
    · rw [heq]; exact h
    · rw [heq]
      exact childinv_transfer g _ (add_edge_go_frame g e).1
        (add_edge_go_frame g e).2.2.2.1 h
  | initStates => exact childinv_transfer g _ rfl rfl h
  | clearPropagated =>
    exact childinv_transfer g _ (foldRemove_frame _ g).1.1
      (foldRemove_frame _ g).2.1 h

theorem childinv_run (ops : List Op) (g : ReflexionGraph) (h0 : Inv0 g)
    (h : ChildInv g) (hwf : ∀ op ∈ ops, wfOp op) : ChildInv (run g ops) := by
  induction ops generalizing g with
  | nil => exact h
  | cons op ops ih =>
    simp only [run, List.foldl_cons]
    exact ih _ (inv0_applyOp g op h0) (childinv_applyOp g op h0 h (hwf op (by simp)))
      (fun o ho => hwf o (by simp [ho]))

theorem reachableWF_to_reachable (g : ReflexionGraph) (h : ReachableWF g) :
    Reachable g := by
  rcases h with ⟨ops, _, hr⟩
  exact ⟨ops, hr⟩

theorem childinv_reachableWF (g : ReflexionGraph) (h : ReachableWF g) :
    ChildInv g := by
  rcases h with ⟨ops, hwf, rfl⟩
  exact childinv_run ops _ inv0_new childinv_new hwf

theorem childrenSym_of_inv (g : ReflexionGraph) (h0 : Inv0 g) (h : ChildInv g) :
    ChildrenSym g := by
  constructor
  · intro pid p cid c hp hc hpar
    have hpid := h0.node_id_eq _ _ hp
    rw [hpid] at hpar
    exact h.parent_child_count pid p cid c hp hc hpar
  · intro i n hg c hc
    rcases h.child_parent i n hg c hc with ⟨m, hm, hpar⟩
    have hni := h0.node_id_eq _ _ hg
    exact ⟨m, hm, by rw [hni]; exact hpar⟩

theorem add_node_ok (g : ReflexionGraph) (n : Node) (id : NodeId)
    (g' : ReflexionGraph) (h : g.add_node n = (Except.ok id, g')) :
    id = g.next_node_id ∧ g' = (add_node_go g n).2 := by
  rcases add_node_cases g n with ⟨p, hp, hc, heq⟩ | ⟨_, heq⟩
  · rw [heq] at h
    exact absurd (congrArg Prod.fst h) (by simp)
  · rw [heq] at h
    refine ⟨?_, ?_⟩
    · have h1 := congrArg Prod.fst h
      rw [(add_node_go_frame g n).2.2.2.2.2.2.2] at h1
      simpa using h1.symm
    · rw [h]

theorem add_edge_ok (g : ReflexionGraph) (e : Edge) (id : EdgeId)
    (g' : ReflexionGraph) (h : g.add_edge e = (Except.ok id, g')) :
    id = g.next_edge_id ∧ g' = (add_edge_go g e).2 := by
  rcases add_edge_cases g e with ⟨_, heq⟩ | ⟨_, _, heq⟩ | ⟨_, _, heq⟩
  · rw [heq] at h
    exact absurd (congrArg Prod.fst h) (by simp)
  · rw [heq] at h
    exact absurd (congrArg Prod.fst h) (by simp)
  · rw [heq] at h
    refine ⟨?_, ?_⟩
    · have h1 := congrArg Prod.fst h
      rw [(add_edge_go_frame g e).2.2.2.2.2.2] at h1
      simpa using h1.symm
    · rw [h]

theorem add_edge_go_impl_out (g : ReflexionGraph) (e : Edge) :
    (add_edge_go g e).2.impl_out =
      if e.subgraph = SubgraphKind.Implementation
      then hmPushEntry g.impl_out e.from_ g.next_edge_id
      else g.impl_out := by
  rw [add_edge_go_eq]

theorem add_edge_go_arch_out (g : ReflexionGraph) (e : Edge) :
    (add_edge_go g e).2.arch_out =
      if e.subgraph = SubgraphKind.Implementation
      then g.arch_out
      else hmPushEntry g.arch_out e.from_ g.next_edge_id := by
  rw [add_edge_go_eq]

/-! ## The claims -/

/-- C8: for every one of the eight EdgeState values, exactly one of
is_violation, is_unknown, is_ok returns true, with the groups
Violation = Absent, Divergent; Acceptable = Convergent, Allowed,
AllowedAbsent; Undecided = Undefined, Unmapped, Specified; and for every
NodeState value exactly one of is_problem, is_unknown, is_ok returns true. -/
theorem taxonomy_exhaustive :
    (∀ s : EdgeState,
      [s.is_violation, s.is_unknown, s.is_ok].count true = 1 ∧
      (s.is_violation = true ↔ (s = EdgeState.Absent ∨ s = EdgeState.Divergent)) ∧
      (s.is_ok = true ↔
        (s = EdgeState.Convergent ∨ s = EdgeState.Allowed ∨
          s = EdgeState.AllowedAbsent)) ∧
      (s.is_unknown = true ↔
        (s = EdgeState.Undefined ∨ s = EdgeState.Unmapped ∨
          s = EdgeState.Specified))) ∧
    (∀ s : NodeState, [s.is_problem, s.is_unknown, s.is_ok].count true = 1) := by
  refine ⟨fun s => ?_, fun s => ?_⟩ <;> cases s <;> decide

/-- C9: init_states is idempotent, and it never alters the node table, the
adjacency indices, the mapping, the id counters, the set of stored edge ids,
or any edge's identity, endpoints, kind or subgraph. -/
theorem init_states_idempotent_frame (g : ReflexionGraph) :
    g.init_states.init_states = g.init_states ∧
    g.init_states.nodes = g.nodes ∧
    g.init_states.impl_out = g.impl_out ∧
    g.init_states.arch_out = g.arch_out ∧
    g.init_states.maps_to = g.maps_to ∧
    g.init_states.next_node_id = g.next_node_id ∧
    g.init_states.next_edge_id = g.next_edge_id ∧
    (∀ i, (hmGet g.init_states.edges i).isSome = (hmGet g.edges i).isSome) ∧
    (∀ i e, hmGet g.edges i = some e →
      hmGet g.init_states.edges i = some (resetEdge e) ∧
      (resetEdge e).id = e.id ∧ (resetEdge e).from_ = e.from_ ∧
      (resetEdge e).to_ = e.to_ ∧ (resetEdge e).kind = e.kind ∧
      (resetEdge e).subgraph = e.subgraph) := by
  have hreset2 : ∀ e : Edge, resetEdge (resetEdge e) = resetEdge e := by
    intro e
    rcases e with ⟨i, f, t, k, sg, st, c⟩
    cases sg <;> rfl
  have hmm : hmMapVals resetEdge (hmMapVals resetEdge g.edges) =
      hmMapVals resetEdge g.edges := by
    unfold hmMapVals
    rw [List.map_map]
    apply List.map_congr_left
    intro p _
    simp [Function.comp, hreset2]
  refine ⟨?_, rfl, rfl, rfl, rfl, rfl, rfl, ?_, ?_⟩
  · simp [ReflexionGraph.init_states, hmm]
  · intro i
    show (hmGet (hmMapVals resetEdge g.edges) i).isSome = (hmGet g.edges i).isSome
    rw [hmGet_mapVals]
    cases hmGet g.edges i <;> rfl
  · intro i e h
    refine ⟨?_, rfl, rfl, rfl, rfl, rfl⟩
    show hmGet (hmMapVals resetEdge g.edges) i = some (resetEdge e)
    rw [hmGet_mapVals, h]
    rfl

/-- C3: after init_states, every stored edge has counter 0, every
Architecture edge has state Specified, every Implementation or Propagated
edge has state Undefined, and the propagation table is empty — whatever the
prior states and counters were. -/
theorem init_states_reset_complete (g : ReflexionGraph) (i : EdgeId) (e : Edge)
    (h : hmGet g.init_states.edges i = some e) :
    e.counter = 0 ∧
    (e.subgraph = SubgraphKind.Architecture → e.state = EdgeState.Specified) ∧
    (e.subgraph = SubgraphKind.Implementation → e.state = EdgeState.Undefined) ∧
    (e.subgraph = SubgraphKind.Propagated → e.state = EdgeState.Undefined) ∧
    g.init_states.propagation_table = [] := by
  have h2 : hmGet (hmMapVals resetEdge g.edges) i = some e := h
  rw [hmGet_mapVals] at h2
  rcases Option.map_eq_some.mp h2 with ⟨e0, _, hmapped⟩
  subst hmapped
  rcases e0 with ⟨eid, ef, et, ek, esg, est, ec⟩
  cases esg <;>
    exact ⟨rfl, fun hs => by first | rfl | simp [resetEdge] at hs,
      fun hs => by first | rfl | simp [resetEdge] at hs,
      fun hs => by first | rfl | simp [resetEdge] at hs, rfl⟩

/-- C3 witness: the messy store g0 after init_states holds its Architecture
edge as Specified with counter 0 and an empty propagation table. -/
theorem init_states_reset_complete_witness :
    (resetEdge eA0).counter = 0 ∧
    ((resetEdge eA0).subgraph = SubgraphKind.Architecture →
      (resetEdge eA0).state = EdgeState.Specified) ∧
    ((resetEdge eA0).subgraph = SubgraphKind.Implementation →
      (resetEdge eA0).state = EdgeState.Undefined) ∧
    ((resetEdge eA0).subgraph = SubgraphKind.Propagated →
      (resetEdge eA0).state = EdgeState.Undefined) ∧
    g0.init_states.propagation_table = [] :=
  init_states_reset_complete g0 10 (resetEdge eA0) rfl

/-- C1: add_edge on a record with a missing endpoint fails with NodeNotFound
naming the source when the source is absent, else the target, and returns
the store unchanged. -/
theorem add_edge_node_not_found (g : ReflexionGraph) (e : Edge)
    (h : hmContains g.nodes e.from_ = false ∨ hmContains g.nodes e.to_ = false) :
    g.add_edge e =
      (Except.error (GraphError.NodeNotFound
        (if hmContains g.nodes e.from_ = true then e.to_ else e.from_)), g) := by
  rcases add_edge_cases g e with ⟨hf, heq⟩ | ⟨hf, ht, heq⟩ | ⟨hf, ht, heq⟩
  · rw [heq, if_neg (by simp [hf])]
  · rw [heq, if_pos hf]
  · rcases h with h | h
    · rw [hf] at h
      exact Bool.noConfusion h
    · rw [ht] at h
      exact Bool.noConfusion h

/-- C1 witness: adding an edge whose source id 9 is absent from the built
store fails with NodeNotFound 9 and leaves the store untouched. -/
theorem add_edge_node_not_found_witness :
    gW.add_edge eNoSrc =
      (Except.error (GraphError.NodeNotFound
        (if hmContains gW.nodes eNoSrc.from_ = true then eNoSrc.to_
         else eNoSrc.from_)), gW) :=
  add_edge_node_not_found gW eNoSrc (Or.inl rfl)

/-- C2: add_node fails with ParentNotFound p exactly when the record
declares a parent p absent from the store, and every add_node or add_edge
failure returns the whole store exactly as it was. -/
theorem add_errors_frame (g : ReflexionGraph) (n : Node) (e : Edge) :
    (∀ p, n.parent = some p → hmContains g.nodes p = false →
      g.add_node n = (Except.error (GraphError.ParentNotFound p), g)) ∧
    (∀ err g', g.add_node n = (Except.error err, g') →
      g' = g ∧ ∃ p, n.parent = some p ∧ hmContains g.nodes p = false ∧
        err = GraphError.ParentNotFound p) ∧
    (∀ err g', g.add_edge e = (Except.error err, g') → g' = g) := by
  refine ⟨?_, ?_, ?_⟩
  · intro p hp hc
    unfold ReflexionGraph.add_node
    rw [hp]
    simp [hc]
  · intro err g' heq
    rcases add_node_cases g n with ⟨p, hp, hc, heq2⟩ | ⟨_, heq2⟩
    · rw [heq2] at heq
      have h1 := congrArg Prod.fst heq
      have h2 := congrArg Prod.snd heq
      simp at h1 h2
      exact ⟨h2.symm, p, hp, hc, h1.symm⟩
    · rw [heq2] at heq
      have h1 := congrArg Prod.fst heq
      rw [(add_node_go_frame g n).2.2.2.2.2.2.2] at h1
      exact absurd h1 (by simp)
  · intro err g' heq
    rcases add_edge_cases g e with ⟨_, heq2⟩ | ⟨_, _, heq2⟩ | ⟨_, _, heq2⟩
    · rw [heq2] at heq
      have h2 := congrArg Prod.snd heq
      simpa using h2.symm
    · rw [heq2] at heq
      have h2 := congrArg Prod.snd heq
      simpa using h2.symm
    · rw [heq2] at heq
      have h1 := congrArg Prod.fst heq
      rw [(add_edge_go_frame g e).2.2.2.2.2.2] at h1
      exact absurd h1 (by simp)

/-- C5: node and edge ids come from two independent counters starting at 1;
a successful add_node or add_edge hands out exactly the counter value, bumps
only its own counter, never collides with a stored id, and every later
successful add of the same kind — across any interleaved operations,
clear_propagated_edges included — hands out a strictly larger id. -/
theorem ids_monotone (g g₁ g₂ g₃ g₄ : ReflexionGraph) (n n' : Node)
    (e e' : Edge) (id₁ id₂ : NodeId) (eid₁ eid₂ : EdgeId)
    (ops ops' : List Op) (hg : Reachable g)
    (hn : g.add_node n = (Except.ok id₁, g₁))
    (hn2 : (run g₁ ops).add_node n' = (Except.ok id₂, g₃))
    (he : g.add_edge e = (Except.ok eid₁, g₂))
    (he2 : (run g₂ ops').add_edge e' = (Except.ok eid₂, g₄)) :
    ReflexionGraph.new.next_node_id = 1 ∧ ReflexionGraph.new.next_edge_id = 1 ∧
    id₁ = g.next_node_id ∧ g₁.next_node_id = id₁ + 1 ∧
    g₁.next_edge_id = g.next_edge_id ∧
    eid₁ = g.next_edge_id ∧ g₂.next_edge_id = eid₁ + 1 ∧
    g₂.next_node_id = g.next_node_id ∧
    hmContains g.nodes id₁ = false ∧ hmContains g.edges eid₁ = false ∧
    1 ≤ id₁ ∧ 1 ≤ eid₁ ∧ id₁ < id₂ ∧ eid₁ < eid₂ := by
  have h0 := inv0_reachable g hg
  obtain ⟨hid1, hg1⟩ := add_node_ok g n id₁ g₁ hn
  obtain ⟨heid1, hg2⟩ := add_edge_ok g e eid₁ g₂ he
  obtain ⟨hid2, _⟩ := add_node_ok _ n' id₂ g₃ hn2
  obtain ⟨heid2, _⟩ := add_edge_ok _ e' eid₂ g₄ he2
  have hnodeframe := add_node_go_frame g n
  have hedgeframe := add_edge_go_frame g e
  have hg1n : g₁.next_node_id = id₁ + 1 := by
    rw [hg1, hnodeframe.2.2.2.2.2.2.1, hid1]
  have hg1e : g₁.next_edge_id = g.next_edge_id := by
    rw [hg1]; exact hnodeframe.2.2.2.2.2.1
  have hg2e : g₂.next_edge_id = eid₁ + 1 := by
    rw [hg2, hedgeframe.2.2.2.2.1, heid1]
  have hg2n : g₂.next_node_id = g.next_node_id := by
    rw [hg2]; exact hedgeframe.2.2.2.1
  refine ⟨rfl, rfl, hid1, hg1n, hg1e, heid1, hg2e, hg2n, ?_, ?_, ?_, ?_, ?_, ?_⟩
  · rw [hid1]; exact not_contains_next_node g h0
  · rw [heid1]; exact not_contains_next_edge g h0
  · rw [hid1]; exact h0.node_pos
  · rw [heid1]; exact h0.edge_pos
  · have hmono := (run_next_mono ops g₁).1
    rw [hg1n] at hmono
    rw [hid2]
    exact Nat.lt_of_lt_of_le (Nat.lt_succ_self _) hmono
  · have hmono := (run_next_mono ops' g₂).2
    rw [hg2e] at hmono
    rw [heid2]
    exact Nat.lt_of_lt_of_le (Nat.lt_succ_self _) hmono

/-- C5 witness: in the built store, a fresh node gets id 5 with the node
counter moving to 6 and the edge counter untouched; a fresh edge gets id 4;
and after clear_propagated_edges discards propagated edge 3, the next edge
still gets a strictly larger id. -/
theorem ids_monotone_witness :
    ReflexionGraph.new.next_node_id = 1 ∧ ReflexionGraph.new.next_edge_id = 1 ∧
    (5 : NodeId) = gW.next_node_id ∧
    (gW.add_node nI1).2.next_node_id = 5 + 1 ∧
    (gW.add_node nI1).2.next_edge_id = gW.next_edge_id ∧
    (4 : EdgeId) = gW.next_edge_id ∧
    (gW.add_edge eImpl).2.next_edge_id = 4 + 1 ∧
    (gW.add_edge eImpl).2.next_node_id = gW.next_node_id ∧
    hmContains gW.nodes 5 = false ∧ hmContains gW.edges 4 = false ∧
    1 ≤ (5 : NodeId) ∧ 1 ≤ (4 : EdgeId) ∧ (5 : NodeId) < 6 ∧ (4 : EdgeId) < 5 :=
  ids_monotone gW (gW.add_node nI1).2 (gW.add_edge eImpl).2
    ((run (gW.add_node nI1).2 [Op.initStates]).add_node nI2).2
    ((run (gW.add_edge eImpl).2 [Op.clearPropagated]).add_edge eArch).2
    nI1 nI2 eImpl eArch 5 6 4 5 [Op.initStates] [Op.clearPropagated]
    ⟨opsW, rfl⟩ rfl rfl rfl rfl

/-- C6: clear_propagated_edges leaves no Propagated edge in the store;
every removed id is gone from the edge store, from both adjacency indices
and from the propagation-table keys; nodes, the mapping, the counters and
all non-Propagated edges are untouched; and with no propagated edge present
the call is a no-op. -/
theorem clear_propagated_purge (g : ReflexionGraph) (hg : Reachable g) :
    (∀ i e, hmGet g.clear_propagated_edges.edges i = some e →
      ¬ e.subgraph = SubgraphKind.Propagated) ∧
    (∀ i e, hmGet g.edges i = some e → e.subgraph = SubgraphKind.Propagated →
      hmGet g.clear_propagated_edges.edges i = none ∧
      (∀ v l, hmGet g.clear_propagated_edges.impl_out v = some l → ¬ i ∈ l) ∧
      (∀ v l, hmGet g.clear_propagated_edges.arch_out v = some l → ¬ i ∈ l) ∧
      hmGet g.clear_propagated_edges.propagation_table i = none) ∧
    (∀ i e, hmGet g.edges i = some e → ¬ e.subgraph = SubgraphKind.Propagated →
      hmGet g.clear_propagated_edges.edges i = some e) ∧
    g.clear_propagated_edges.nodes = g.nodes ∧
    g.clear_propagated_edges.maps_to = g.maps_to ∧
    g.clear_propagated_edges.next_node_id = g.next_node_id ∧
    g.clear_propagated_edges.next_edge_id = g.next_edge_id ∧
    ((∀ i e, hmGet g.edges i = some e → ¬ e.subgraph = SubgraphKind.Propagated) →
      g.clear_propagated_edges = g) := by
  have h0 := inv0_reachable g hg
  have hnd := h0.edges_nodup
  have hedges : ∀ i, hmGet g.clear_propagated_edges.edges i =
      if i ∈ propagatedIds g then none else hmGet g.edges i :=
    fun i => foldRemove_edges_get (propagatedIds g) g i
  have hinv2 : Inv0 g.clear_propagated_edges := inv0_clear g h0
  have hframe := foldRemove_frame (propagatedIds g) g
  refine ⟨?_, ?_, ?_, hframe.1.1, hframe.1.2, hframe.2.1, hframe.2.2, ?_⟩
  · intro i e hget hsub
    rw [hedges] at hget
    by_cases hiL : i ∈ propagatedIds g
    · rw [if_pos hiL] at hget
      cases hget
    · rw [if_neg hiL] at hget
      exact hiL ((mem_propagatedIds_iff g hnd i).mpr ⟨e, hget, hsub⟩)
  · intro i e hget hsub
    have hiL : i ∈ propagatedIds g :=
      (mem_propagatedIds_iff g hnd i).mpr ⟨e, hget, hsub⟩
    have hgone : hmGet g.clear_propagated_edges.edges i = none := by
      rw [hedges, if_pos hiL]
    refine ⟨hgone, ?_, ?_, ?_⟩
    · intro v l hl hmem
      rcases hinv2.impl_adj v l hl i hmem with ⟨ed, hed, _, _⟩
      rw [hgone] at hed
      cases hed
    · intro v l hl hmem
      rcases hinv2.arch_adj v l hl i hmem with ⟨ed, hed, _, _⟩
      rw [hgone] at hed
      cases hed
    · exact foldRemove_prop_mem (propagatedIds g) g i (propagatedIds_nodup g hnd)
        (propagatedIds_present g hnd) hiL
  · intro i e hget hsub
    have hiL : ¬ i ∈ propagatedIds g := by
      intro hmem
      rcases (mem_propagatedIds_iff g hnd i).mp hmem with ⟨e2, hget2, hsub2⟩
      rw [hget] at hget2
      exact hsub (Option.some_inj.mp hget2 ▸ hsub2)
    rw [hedges, if_neg hiL]
    exact hget
  · intro hnone
    have hL : propagatedIds g = [] := by
      cases hL : propagatedIds g with
      | nil => rfl
      | cons x xs =>
        exfalso
        have hx : x ∈ propagatedIds g := by rw [hL]; exact List.mem_cons_self x xs
        rcases (mem_propagatedIds_iff g hnd x).mp hx with ⟨e2, hget2, hsub2⟩
        exact hnone x e2 hget2 hsub2
    show (propagatedIds g).foldl removeEdgeStep g = g
    rw [hL]
    rfl

/-- C6 witness: clearing the built store kills its one propagated edge and
its traces while nodes and the other edges survive. -/
theorem clear_propagated_purge_witness :
    (∀ i e, hmGet gW.clear_propagated_edges.edges i = some e →
      ¬ e.subgraph = SubgraphKind.Propagated) ∧
    (∀ i e, hmGet gW.edges i = some e → e.subgraph = SubgraphKind.Propagated →
      hmGet gW.clear_propagated_edges.edges i = none ∧
      (∀ v l, hmGet gW.clear_propagated_edges.impl_out v = some l → ¬ i ∈ l) ∧
      (∀ v l, hmGet gW.clear_propagated_edges.arch_out v = some l → ¬ i ∈ l) ∧
      hmGet gW.clear_propagated_edges.propagation_table i = none) ∧
    (∀ i e, hmGet gW.edges i = some e → ¬ e.subgraph = SubgraphKind.Propagated →
      hmGet gW.clear_propagated_edges.edges i = some e) ∧
    gW.clear_propagated_edges.nodes = gW.nodes ∧
    gW.clear_propagated_edges.maps_to = gW.maps_to ∧
    gW.clear_propagated_edges.next_node_id = gW.next_node_id ∧
    gW.clear_propagated_edges.next_edge_id = gW.next_edge_id ∧
    ((∀ i e, hmGet gW.edges i = some e →
      ¬ e.subgraph = SubgraphKind.Propagated) →
      gW.clear_propagated_edges = gW) :=
  clear_propagated_purge gW ⟨opsW, rfl⟩

/-- C7: a successfully added Implementation edge lands in impl_out under its
source and nowhere in arch_out; a successfully added Architecture or
Propagated edge lands in arch_out under its source and nowhere in
impl_out. -/
theorem adjacency_routing (g : ReflexionGraph) (e : Edge) (id : EdgeId)
    (g' : ReflexionGraph) (hg : Reachable g)
    (h : g.add_edge e = (Except.ok id, g')) :
    (e.subgraph = SubgraphKind.Implementation →
      id ∈ (hmGet g'.impl_out e.from_).getD [] ∧
      (∀ v l, hmGet g'.arch_out v = some l → ¬ id ∈ l)) ∧
    ((e.subgraph = SubgraphKind.Architecture ∨
        e.subgraph = SubgraphKind.Propagated) →
      id ∈ (hmGet g'.arch_out e.from_).getD [] ∧
      (∀ v l, hmGet g'.impl_out v = some l → ¬ id ∈ l)) := by
  have h0 := inv0_reachable g hg
  obtain ⟨hid, hg'⟩ := add_edge_ok g e id g' h
  subst hid
  constructor
  · intro hs
    constructor
    · rw [hg', add_edge_go_impl_out, if_pos hs, hmGet_pushEntry_self]
      simp
    · intro v l hl hmem
      rw [hg', add_edge_go_arch_out, if_pos hs] at hl
      rcases h0.arch_adj v l hl _ hmem with ⟨ed, hed, _, _⟩
      exact absurd (h0.edge_key_lt _ _ hed) (lt_irrefl _)
  · intro hs
    have hs2 : ¬ e.subgraph = SubgraphKind.Implementation := by
      rcases hs with hs | hs <;> rw [hs] <;> intro hc <;> cases hc
    constructor
    · rw [hg', add_edge_go_arch_out, if_neg hs2, hmGet_pushEntry_self]
      simp
    · intro v l hl hmem
      rw [hg', add_edge_go_impl_out, if_neg hs2] at hl
      rcases h0.impl_adj v l hl _ hmem with ⟨ed, hed, _, _⟩
      exact absurd (h0.edge_key_lt _ _ hed) (lt_irrefl _)

/-- C7 witness: the implementation edge the run adds lands in impl_out at
node 3 only, and the propagated edge in arch_out at node 1 only. -/
theorem adjacency_routing_witness :
    (eImpl.subgraph = SubgraphKind.Implementation →
      (2 : EdgeId) ∈ (hmGet ((run ReflexionGraph.new
        [Op.addNode nA, Op.addNode nB, Op.addNode nI1, Op.addNode nI2,
         Op.addEdge eArch]).add_edge eImpl).2.impl_out eImpl.from_).getD [] ∧
      (∀ v l, hmGet ((run ReflexionGraph.new
        [Op.addNode nA, Op.addNode nB, Op.addNode nI1, Op.addNode nI2,
         Op.addEdge eArch]).add_edge eImpl).2.arch_out v = some l →
        ¬ (2 : EdgeId) ∈ l)) ∧
    ((eImpl.subgraph = SubgraphKind.Architecture ∨
        eImpl.subgraph = SubgraphKind.Propagated) →
      (2 : EdgeId) ∈ (hmGet ((run ReflexionGraph.new
        [Op.addNode nA, Op.addNode nB, Op.addNode nI1, Op.addNode nI2,
         Op.addEdge eArch]).add_edge eImpl).2.arch_out eImpl.from_).getD [] ∧
      (∀ v l, hmGet ((run ReflexionGraph.new
        [Op.addNode nA, Op.addNode nB, Op.addNode nI1, Op.addNode nI2,
         Op.addEdge eArch]).add_edge eImpl).2.impl_out v = some l →
        ¬ (2 : EdgeId) ∈ l)) :=
  adjacency_routing _ eImpl 2 _
    ⟨[Op.addNode nA, Op.addNode nB, Op.addNode nI1, Op.addNode nI2,
      Op.addEdge eArch], rfl⟩ rfl

/-- C10: a successful add_node stores the record with only its id field
overridden: name, subgraph, parent and the caller-supplied children list go
in exactly as given. -/
theorem add_node_stores_record_intact (g : ReflexionGraph) (n : Node)
    (id : NodeId) (g' : ReflexionGraph) (hg : Reachable g)
    (h : g.add_node n = (Except.ok id, g')) :
    hmGet g'.nodes id = some
      { id := id, name := n.name, subgraph := n.subgraph, parent := n.parent,
        children := n.children } := by
  have h0 := inv0_reachable g hg
  obtain ⟨hid, hg'⟩ := add_node_ok g n id g' h
  subst hid
  rw [hg']
  cases hp : n.parent with
  | none =>
    rw [add_node_go_nodes_none g n hp, hmGet_insert, if_pos rfl]
  | some pid =>
    have hpar : hmContains g.nodes pid = true := by
      rcases add_node_cases g n with ⟨p, hp2, hc2, heq⟩ | ⟨hpar, heq⟩
      · rw [heq] at h
        exact absurd (congrArg Prod.fst h) (by simp)
      · exact hpar pid hp
    have hq : ∃ q, hmGet g.nodes pid = some q := by
      unfold hmContains at hpar
      cases hgp : hmGet g.nodes pid with
      | none => rw [hgp] at hpar; simp at hpar
      | some q => exact ⟨q, rfl⟩
    obtain ⟨q, hq⟩ := hq
    have hpidN : ¬ g.next_node_id = pid := fun hcn =>
      absurd (h0.node_key_lt _ _ (hcn ▸ hq)) (lt_irrefl _)
    rw [add_node_go_nodes_some g n pid hp, hmGet_update, if_neg hpidN,
      hmGet_insert, if_pos rfl]

/-- C10 witness: a record entering with children 7, 8 and parent 1 is stored
at the fresh id 5 with that children list intact. -/
theorem add_node_stores_record_intact_witness :
    hmGet (gW.add_node nKeep).2.nodes 5 = some
      { id := 5, name := "Keep", subgraph := SubgraphKind.Implementation,
        parent := some 1, children := [7, 8] } :=
  add_node_stores_record_intact gW nKeep 5 (gW.add_node nKeep).2
    ⟨opsW, rfl⟩ rfl

/-- C4 counterexample: the claimed parent/child symmetry fails on a
reachable state — a record inserted with the forged children list 7 yields
a stored node whose children name no stored node at all. -/
theorem children_symmetry_counterexample :
    Reachable gBad ∧ ¬ ChildrenSym gBad := by
  constructor
  · exact ⟨[Op.addNode nBad], rfl⟩
  · intro hsym
    rcases hsym with ⟨_, hsym2⟩
    have h1 : hmGet gBad.nodes 1 = some
        { id := 1, name := "Rogue", subgraph := SubgraphKind.Architecture,
          parent := none, children := [7] } := rfl
    rcases hsym2 1 _ h1 7 (by simp) with ⟨m, hm, _⟩
    have h7 : hmGet gBad.nodes 7 = (none : Option Node) := rfl
    rw [h7] at hm
    cases hm

/-- C4 as amended: in every state reachable through runs whose add_node
records carry an empty children list (the store's intended discipline), a
stored child's parent owns it exactly once in its children list, and every
listed child is a stored node whose parent field points back at its
owner. -/
theorem children_symmetry_of_wf_runs (g : ReflexionGraph)
    (h : ReachableWF g) : ChildrenSym g :=
  childrenSym_of_inv g (inv0_reachable g (reachableWF_to_reachable g h))
    (childinv_reachableWF g h)

/-- C4 witness: the built store satisfies the symmetry. -/
theorem children_symmetry_of_wf_runs_witness : ChildrenSym gW :=
  children_symmetry_of_wf_runs gW
    ⟨opsW, by
      intro op hop
      simp [opsW] at hop
      rcases hop with rfl | rfl | rfl | rfl | rfl | rfl | rfl
      · rfl
      · rfl
      · rfl
      · rfl
      · trivial
      · trivial
      · trivial, rfl⟩

end Reflexion
